import Mathlib

/-!
# The league ranking of `chapters/7-types-methods-interfaces/code/main.go`

A shallow embedding of `Team`, `League`, `NewLeague`, `ValidateTeam`, `MatchResult` and
`Ranking`, together with the sort that `Ranking` runs: Go's `slices.SortFunc`, that is
`pdqsortCmpFunc` and its helpers from the standard library file `slices/zsortanyfunc.go`
(with `xorshift` and `nextPowerOfTwo` from `slices/sort.go`), function by function.

Conventions of the embedding:

* a slice is a `List`; an index expression out of range panics in Go and is `none` here;
* a loop is a recursion on a step counter; running out of steps is `none` too, and the
  theorems show that the counters handed out are never exhausted;
* indices are natural numbers: where Go counts an `int` down, the loop guard keeps it at 0
  or above;
* Go's `int` is 64 bits wide and wraps around: `wrapInt`;
* a `map[string]int` that `make` has built is a function `String → Option Int`, `none` for
  an absent key; the field `Wins` is an `Option` of it, `none` for the nil map, which reads
  as empty and panics when written;
* a method with a value receiver that writes through the shared map returns the league,
  or `none` when it panics.

The file has three parts: the definitions; lemmas on the league, then on the sort (it
always returns a permutation; it leaves a slice of equal entries alone; up to 12 entries
it is stable; it sorts); and the theorems on `NewLeague`, `MatchResult` and `Ranking`.
-/

namespace Slices

variable {E : Type}

/-- The assignment `data[i], data[j] = data[j], data[i]`. -/
def swap (data : List E) (i j : Nat) : Option (List E) :=
  match data[i]?, data[j]? with
  | some x, some y => some ((data.set i y).set j x)
  | _, _ => none

/-- The test `cmp(data[i], data[j]) < 0`. -/
def less (cmp : E → E → Int) (data : List E) (i j : Nat) : Option Bool :=
  match data[i]?, data[j]? with
  | some x, some y => some (decide (cmp x y < 0))
  | _, _ => none

/-- The inner loop of `insertionSortCmpFunc`,
`for j := i; j > a && cmp(data[j], data[j-1]) < 0; j-- { swap j, j-1 }`,
by recursion on `j`. -/
def insertionInner (cmp : E → E → Int) (a : Nat) : Nat → List E → Option (List E)
  | 0, data => some data
  | j + 1, data =>
    if j + 1 > a then
      match less cmp data (j + 1) j with
      | none => none
      | some true => (swap data (j + 1) j).bind (insertionInner cmp a j)
      | some false => some data
    else some data

/-- The outer loop of `insertionSortCmpFunc`, `for i := a + 1; i < b; i++`. -/
def insertionOuter (cmp : E → E → Int) (a b : Nat) : Nat → Nat → List E → Option (List E)
  | 0, i, data => if i < b then none else some data
  | fuel + 1, i, data =>
    if i < b then
      (insertionInner cmp a i data).bind (insertionOuter cmp a b fuel (i + 1))
    else some data

/-- `insertionSortCmpFunc` sorts `data[a:b]` using insertion sort. -/
def insertionSortCmpFunc (cmp : E → E → Int) (data : List E) (a b : Nat) : Option (List E) :=
  insertionOuter cmp a b (b - a) (a + 1) data

/-- The loop of `siftDownCmpFunc`, with `root` as loop variable. -/
def siftDownLoop (cmp : E → E → Int) (hi first : Nat) : Nat → Nat → List E → Option (List E)
  | 0, _, _ => none
  | fuel + 1, root, data =>
    let child := 2 * root + 1
    if child ≥ hi then some data
    else
      match (if child + 1 < hi then less cmp data (first + child) (first + child + 1)
             else some false) with
      | none => none
      | some c =>
        let child := if c then child + 1 else child
        match less cmp data (first + root) (first + child) with
        | none => none
        | some false => some data
        | some true =>
          (swap data (first + root) (first + child)).bind (siftDownLoop cmp hi first fuel child)

/-- `siftDownCmpFunc` implements the heap property on `data[lo:hi]`;
`first` is an offset into the array where the root of the heap lies. -/
def siftDownCmpFunc (cmp : E → E → Int) (data : List E) (lo hi first : Nat) : Option (List E) :=
  siftDownLoop cmp hi first (hi + 1) lo data

/-- Build heap with greatest element at top: `for i := (hi - 1) / 2; i >= 0; i--`.
The argument is `i + 1`. -/
def heapBuild (cmp : E → E → Int) (hi first : Nat) : Nat → List E → Option (List E)
  | 0, data => some data
  | i + 1, data => (siftDownCmpFunc cmp data i hi first).bind (heapBuild cmp hi first i)

/-- Pop elements, largest first, into end of data: `for i := hi - 1; i >= 0; i--`.
The argument is `i + 1`. -/
def heapPop (cmp : E → E → Int) (first : Nat) : Nat → List E → Option (List E)
  | 0, data => some data
  | i + 1, data =>
    (swap data first (first + i)).bind fun data =>
    (siftDownCmpFunc cmp data 0 i first).bind (heapPop cmp first i)

/-- `heapSortCmpFunc` sorts `data[a:b]` with a heap. -/
def heapSortCmpFunc (cmp : E → E → Int) (data : List E) (a b : Nat) : Option (List E) :=
  let first := a
  let hi := b - a
  (heapBuild cmp hi first ((hi - 1) / 2 + 1) data).bind (heapPop cmp first hi)

/-- The scan `for i <= j && test(i) { i++ }`; returns the final `i`. -/
def scanUp (test : Nat → Option Bool) (j : Nat) : Nat → Nat → Option Nat
  | 0, i => if i ≤ j then none else some i
  | fuel + 1, i =>
    if i ≤ j then
      match test i with
      | none => none
      | some true => scanUp test j fuel (i + 1)
      | some false => some i
    else some i

/-- The scan `for i <= j && test(j) { j-- }`; returns the final `j`.
Every caller has `1 ≤ i`, so `j` stays a natural number. -/
def scanDown (test : Nat → Option Bool) (i : Nat) : Nat → Nat → Option Nat
  | 0, j => if i ≤ j then none else some j
  | fuel + 1, j =>
    if i ≤ j then
      match test j with
      | none => none
      | some true => scanDown test i fuel (j - 1)
      | some false => some j
    else some j

/-- The main loop of a partition: scan `i` up while `up`, scan `j` down while `down`,
leave when `i > j`, otherwise swap and step both. Returns the data and the final `i`, `j`. -/
def partitionLoop (up down : List E → Nat → Option Bool) :
    Nat → Nat → Nat → List E → Option (List E × Nat × Nat)
  | 0, _, _, _ => none
  | fuel + 1, i, j, data =>
    (scanUp (up data) j (j + 1 - i) i).bind fun i =>
    (scanDown (down data) i (j + 1 - i) j).bind fun j =>
    if i > j then some (data, i, j)
    else (swap data i j).bind (partitionLoop up down fuel (i + 1) (j - 1))

/-- `partitionCmpFunc` does one quicksort partition. With `p = data[pivot]` it moves the
elements of `data[a:b]` so that `data[i] < p` and `data[j] >= p` for `i < newpivot` and
`j > newpivot`, and `data[newpivot] = p`. Returns the data, `newpivot` and
`alreadyPartitioned`. -/
def partitionCmpFunc (cmp : E → E → Int) (data : List E) (a b pivot : Nat) :
    Option (List E × Nat × Bool) :=
  let up := fun (d : List E) k => less cmp d k a
  let down := fun (d : List E) k => (less cmp d k a).map not
  (swap data a pivot).bind fun data =>
  let i := a + 1
  let j := b - 1
  (scanUp (up data) j (j + 1 - i) i).bind fun i =>
  (scanDown (down data) i (j + 1 - i) j).bind fun j =>
  if i > j then
    (swap data j a).bind fun data => some (data, j, true)
  else
    (swap data i j).bind fun data =>
    (partitionLoop up down (b - a) (i + 1) (j - 1) data).bind fun r =>
    (swap r.1 r.2.2 a).bind fun data => some (data, r.2.2, false)

/-- `partitionEqualCmpFunc` partitions `data[a:b]` into elements equal to `data[pivot]`
followed by elements greater than `data[pivot]`. It assumes that `data[a:b]` does not
contain elements smaller than `data[pivot]`. Returns the data and `newpivot`. -/
def partitionEqualCmpFunc (cmp : E → E → Int) (data : List E) (a b pivot : Nat) :
    Option (List E × Nat) :=
  let up := fun (d : List E) k => (less cmp d a k).map not
  let down := fun (d : List E) k => less cmp d a k
  (swap data a pivot).bind fun data =>
  (partitionLoop up down (b - a + 1) (a + 1) (b - 1) data).bind fun r =>
  some (r.1, r.2.1)

/-- The scan `for i < b && !(cmp(data[i], data[i-1]) < 0) { i++ }` of
`partialInsertionSortCmpFunc`; returns the final `i`. -/
def scanSorted (cmp : E → E → Int) (data : List E) (b : Nat) : Nat → Nat → Option Nat
  | 0, i => if i < b then none else some i
  | fuel + 1, i =>
    if i < b then
      match less cmp data i (i - 1) with
      | none => none
      | some false => scanSorted cmp data b fuel (i + 1)
      | some true => some i
    else some i

/-- Shift the smaller one to the left:
`for j := i - 1; j >= 1; j-- { if !(cmp(data[j], data[j-1]) < 0) { break }; swap j, j-1 }`,
by recursion on `j`. -/
def shiftLeft (cmp : E → E → Int) : Nat → List E → Option (List E)
  | 0, data => some data
  | j + 1, data =>
    match less cmp data (j + 1) j with
    | none => none
    | some false => some data
    | some true => (swap data (j + 1) j).bind (shiftLeft cmp j)

/-- Shift the greater one to the right:
`for j := i + 1; j < b; j++ { if !(cmp(data[j], data[j-1]) < 0) { break }; swap j, j-1 }`. -/
def shiftRight (cmp : E → E → Int) (b : Nat) : Nat → Nat → List E → Option (List E)
  | 0, j, data => if j < b then none else some data
  | fuel + 1, j, data =>
    if j < b then
      match less cmp data j (j - 1) with
      | none => none
      | some false => some data
      | some true => (swap data j (j - 1)).bind (shiftRight cmp b fuel (j + 1))
    else some data

/-- The loop `for j := 0; j < maxSteps; j++` of `partialInsertionSortCmpFunc`; the first
argument counts the steps that are left, `i` is carried from step to step. -/
def partialInsertionLoop (cmp : E → E → Int) (a b : Nat) :
    Nat → Nat → List E → Option (List E × Bool)
  | 0, _, data => some (data, false)
  | steps + 1, i, data =>
    (scanSorted cmp data b (b - i) i).bind fun i =>
    if i = b then some (data, true)
    else if b - a < 50 then some (data, false)
    else
      (swap data i (i - 1)).bind fun data =>
      (if i - a ≥ 2 then shiftLeft cmp (i - 1) data else some data).bind fun data =>
      (if b - i ≥ 2 then shiftRight cmp b (b - i) (i + 1) data else some data).bind fun data =>
      partialInsertionLoop cmp a b steps i data

/-- `partialInsertionSortCmpFunc` partially sorts a slice, returns true if the slice is
sorted at the end (`maxSteps = 5`, `shortestShifting = 50`). -/
def partialInsertionSortCmpFunc (cmp : E → E → Int) (data : List E) (a b : Nat) :
    Option (List E × Bool) :=
  partialInsertionLoop cmp a b 5 (a + 1) data

/-- The bit count behind `bits.Len`: halve `x` until it is 0, at most `fuel` times. -/
def bitsLenAux : Nat → Nat → Nat
  | 0, _ => 0
  | fuel + 1, x => if x = 0 then 0 else bitsLenAux fuel (x / 2) + 1

/-- `bits.Len` on a 64 bit word: the number of bits needed to write `x`, 0 for `x = 0`. -/
def bitsLen (x : Nat) : Nat :=
  bitsLenAux 64 x

/-- `nextPowerOfTwo(length)`, that is `1 << bits.Len(uint(length))`. -/
def nextPowerOfTwo (length : Nat) : Nat :=
  2 ^ bitsLen length

/-- One step of the `xorshift` generator on a `uint64`: `r ^= r << 13; r ^= r >> 7;
r ^= r << 17`. It only picks which entries `breakPatternsCmpFunc` swaps, and no theorem
below depends on the shift amounts. -/
def xorshiftNext (r : Nat) : Nat :=
  let r := r ^^^ (r <<< 13 % 2 ^ 64)
  let r := r ^^^ (r >>> 7)
  r ^^^ (r <<< 17 % 2 ^ 64)

/-- The loop `for i := 0; i < 3; i++` of `breakPatternsCmpFunc`, which exchanges the entry
at `idx + i` with the entry at `a + other`; the first argument counts the rounds that are
left. -/
def breakPatternsLoop (a length modulus idx : Nat) :
    Nat → Nat → Nat → List E → Option (List E)
  | 0, _, _, data => some data
  | n + 1, i, random, data =>
    let random := xorshiftNext random
    let other := random &&& (modulus - 1)
    let other := if other ≥ length then other - length else other
    (swap data (idx + i) (a + other)).bind
      (breakPatternsLoop a length modulus idx n (i + 1) random)

/-- `breakPatternsCmpFunc` scatters some elements around in an attempt to break some
patterns that might cause imbalanced partitions in quicksort. -/
def breakPatternsCmpFunc (data : List E) (a b : Nat) : Option (List E) :=
  let length := b - a
  if length ≥ 8 then
    breakPatternsLoop a length (nextPowerOfTwo length) (a + (length / 4) * 2 - 1) 3 0 length data
  else some data

/-- The hint `choosePivotCmpFunc` returns with the pivot. -/
inductive sortedHint where
  | unknownHint
  | increasingHint
  | decreasingHint
  deriving DecidableEq, Repr

/-- `order2CmpFunc` returns `x, y` where `data[x] <= data[y]`, where `x, y = a, b` or
`x, y = b, a`; the third component is the updated `*swaps`. -/
def order2CmpFunc (cmp : E → E → Int) (data : List E) (a b swaps : Nat) :
    Option (Nat × Nat × Nat) :=
  (less cmp data b a).bind fun c =>
  if c then some (b, a, swaps + 1) else some (a, b, swaps)

/-- `medianCmpFunc` returns `x` where `data[x]` is the median of `data[a]`, `data[b]`,
`data[c]`, where `x` is `a`, `b` or `c`; the second component is the updated `*swaps`. -/
def medianCmpFunc (cmp : E → E → Int) (data : List E) (a b c swaps : Nat) :
    Option (Nat × Nat) :=
  (order2CmpFunc cmp data a b swaps).bind fun r1 =>
  (order2CmpFunc cmp data r1.2.1 c r1.2.2).bind fun r2 =>
  (order2CmpFunc cmp data r1.1 r2.1 r2.2.2).bind fun r3 =>
  some (r3.2.1, r3.2.2)

/-- `medianAdjacentCmpFunc` finds the median of `data[a - 1]`, `data[a]`, `data[a + 1]`. -/
def medianAdjacentCmpFunc (cmp : E → E → Int) (data : List E) (a swaps : Nat) :
    Option (Nat × Nat) :=
  medianCmpFunc cmp data (a - 1) a (a + 1) swaps

/-- `choosePivotCmpFunc` chooses a pivot in `data[a:b]`: a static pivot for a length in
`[0, 8)`, the median of three in `[8, 50)`, the Tukey ninther from 50 on
(`shortestNinther = 50`, `maxSwaps = 4 * 3`). -/
def choosePivotCmpFunc (cmp : E → E → Int) (data : List E) (a b : Nat) :
    Option (Nat × sortedHint) :=
  let l := b - a
  let i := a + l / 4 * 1
  let j := a + l / 4 * 2
  let k := a + l / 4 * 3
  (if l ≥ 8 then
    (if l ≥ 50 then
      (medianAdjacentCmpFunc cmp data i 0).bind fun ri =>
      (medianAdjacentCmpFunc cmp data j ri.2).bind fun rj =>
      (medianAdjacentCmpFunc cmp data k rj.2).bind fun rk =>
      some (ri.1, rj.1, rk.1, rk.2)
    else some (i, j, k, 0)).bind fun r =>
    medianCmpFunc cmp data r.1 r.2.1 r.2.2.1 r.2.2.2
  else some (j, 0)).bind fun r =>
  if r.2 = 0 then some (r.1, sortedHint.increasingHint)
  else if r.2 = 4 * 3 then some (r.1, sortedHint.decreasingHint)
  else some (r.1, sortedHint.unknownHint)

/-- The loop `for i < j { swap i, j; i++; j-- }` of `reverseRangeCmpFunc`. -/
def reverseRangeLoop : Nat → Nat → Nat → List E → Option (List E)
  | 0, i, j, data => if i < j then none else some data
  | fuel + 1, i, j, data =>
    if i < j then (swap data i j).bind (reverseRangeLoop fuel (i + 1) (j - 1))
    else some data

/-- `reverseRangeCmpFunc` reverses `data[a:b]`. -/
def reverseRangeCmpFunc (data : List E) (a b : Nat) : Option (List E) :=
  reverseRangeLoop (b - a) a (b - 1) data

/-- `pdqsortCmpFunc` sorts `data[a:b]` by pattern-defeating quicksort; `limit` is the number
of allowed bad pivots before falling back to heapsort (`maxInsertion = 12`). One unfolding is
one round of the function's `for` loop, whose variables `a`, `b`, `limit`, `wasBalanced` and
`wasPartitioned` are the arguments; a call of the Go function enters with both flags true. -/
def pdqsortCmpFunc (cmp : E → E → Int) :
    Nat → List E → Nat → Nat → Nat → Bool → Bool → Option (List E)
  | 0, _, _, _, _, _, _ => none
  | fuel + 1, data, a, b, limit, wasBalanced, wasPartitioned =>
    let length := b - a
    if length ≤ 12 then insertionSortCmpFunc cmp data a b
    else if limit = 0 then heapSortCmpFunc cmp data a b
    else
      (if !wasBalanced then (breakPatternsCmpFunc data a b).map fun d => (d, limit - 1)
       else some (data, limit)).bind fun s1 =>
      let data := s1.1
      let limit := s1.2
      (choosePivotCmpFunc cmp data a b).bind fun ph =>
      (if ph.2 = sortedHint.decreasingHint then
        (reverseRangeCmpFunc data a b).map fun d =>
          (d, (b - 1) - (ph.1 - a), sortedHint.increasingHint)
       else some (data, ph.1, ph.2)).bind fun s2 =>
      let data := s2.1
      let pivot := s2.2.1
      let hint := s2.2.2
      (if wasBalanced && wasPartitioned && hint = sortedHint.increasingHint then
        partialInsertionSortCmpFunc cmp data a b
       else some (data, false)).bind fun s3 =>
      if s3.2 then some s3.1
      else
        let data := s3.1
        (if a > 0 then (less cmp data (a - 1) pivot).map not else some false).bind fun eq =>
        if eq then
          (partitionEqualCmpFunc cmp data a b pivot).bind fun pe =>
          pdqsortCmpFunc cmp fuel pe.1 pe.2 b limit wasBalanced wasPartitioned
        else
          (partitionCmpFunc cmp data a b pivot).bind fun pr =>
          let data := pr.1
          let mid := pr.2.1
          let wasPartitioned := pr.2.2
          let leftLen := mid - a
          let rightLen := b - mid
          let balanceThreshold := length / 8
          if leftLen < rightLen then
            let wasBalanced := decide (leftLen ≥ balanceThreshold)
            (pdqsortCmpFunc cmp fuel data a mid limit true true).bind fun data =>
            pdqsortCmpFunc cmp fuel data (mid + 1) b limit wasBalanced wasPartitioned
          else
            let wasBalanced := decide (rightLen ≥ balanceThreshold)
            (pdqsortCmpFunc cmp fuel data (mid + 1) b limit true true).bind fun data =>
            pdqsortCmpFunc cmp fuel data a mid limit wasBalanced wasPartitioned

/-- `slices.SortFunc` sorts the slice `x` in ascending order as determined by `cmp`:
`n := len(x); pdqsortCmpFunc(x, 0, n, bits.Len(uint(n)), cmp)`. -/
def SortFunc (cmp : E → E → Int) (x : List E) : Option (List E) :=
  let n := x.length
  pdqsortCmpFunc cmp (n + 1) x 0 n (bitsLen n) true true

/-- `x` stands before `y` in `l`: at some position `p` and some later position `q`. -/
def Before (l : List E) (x y : E) : Prop :=
  ∃ p q : Nat, p < q ∧ l[p]? = some x ∧ l[q]? = some y

/-- Every pair that `d` has in the opposite order of `orig` compares "less": whenever `u`
stands before `v` in `d` but `v` before `u` in `orig`, `cmp u v < 0`. -/
def Justified (cmp : E → E → Int) (orig d : List E) : Prop :=
  ∀ u v, Before d u v → Before orig v u → cmp u v < 0

/-- The key of entry `k` of `d`; 0 where `d` has no entry `k`. -/
def keyAt (key : E → Int) (d : List E) (k : Nat) : Int :=
  match d[k]? with
  | some x => key x
  | none => 0

/-- `d'` arises from `d` by rearranging the entries at the indices `a ≤ k < b`: the length
is the same, every other entry is where it was, and every entry of `d'` in the range is an
entry of `d` in the range. -/
def Within (d d' : List E) (a b : Nat) : Prop :=
  d'.length = d.length ∧ (∀ k : Nat, k < a ∨ b ≤ k → d'[k]? = d[k]?) ∧
  ∀ k : Nat, a ≤ k → k < b → ∃ k' : Nat, a ≤ k' ∧ k' < b ∧ d'[k]? = d[k']?

/-- The entries of `d` at the indices `a ≤ k < b` are in ascending order of their keys. -/
def SortedOn (key : E → Int) (d : List E) (a b : Nat) : Prop :=
  ∀ p q : Nat, a ≤ p → p < q → q < b → keyAt key d p ≤ keyAt key d q

/-- The state of an insertion into `d[a..i]`: the entries other than the one at `j` are in
ascending order, and the entry at `j` is at most every entry after it. -/
def Hole (key : E → Int) (d : List E) (a i j : Nat) : Prop :=
  (∀ p q : Nat, a ≤ p → p < q → q ≤ i → p ≠ j → q ≠ j → keyAt key d p ≤ keyAt key d q) ∧
  ∀ q : Nat, j < q → q ≤ i → keyAt key d j ≤ keyAt key d q

/-- The heap property on `d[first+lo..first+hi)`: every node `c` whose parent `(c - 1) / 2`
is at least `lo` has a key no larger than its parent's. -/
def HeapFrom (key : E → Int) (d : List E) (first lo hi : Nat) : Prop :=
  ∀ c : Nat, 1 ≤ c → c < hi → lo ≤ (c - 1) / 2 →
    keyAt key d (first + c) ≤ keyAt key d (first + (c - 1) / 2)

/-- The state of `siftDownCmpFunc` with the sinking entry at `r`: the heap property holds
at every node whose parent is not `r`, and the children of `r` are no larger than the
parent of `r`. -/
def SiftInv (key : E → Int) (d : List E) (first lo hi r : Nat) : Prop :=
  (∀ c : Nat, 1 ≤ c → c < hi → lo ≤ (c - 1) / 2 → (c - 1) / 2 ≠ r →
    keyAt key d (first + c) ≤ keyAt key d (first + (c - 1) / 2)) ∧
  (r ≠ lo → 1 ≤ r ∧ lo ≤ (r - 1) / 2 ∧ ∀ c : Nat, 1 ≤ c → c < hi → (c - 1) / 2 = r →
    keyAt key d (first + c) ≤ keyAt key d (first + (r - 1) / 2))

/-- No entry of `d[a..b)` has a key below that of the entry just before the range (when
there is one). `pdqsortCmpFunc` keeps this true of the range it works on. -/
def Floor (key : E → Int) (d : List E) (a b : Nat) : Prop :=
  a > 0 → ∀ k : Nat, a ≤ k → k < b → keyAt key d (a - 1) ≤ keyAt key d k

/-- A step returned a permutation of `data`. -/
def Ok (data : List E) (r : Option (List E)) : Prop :=
  ∃ d', r = some d' ∧ d'.Perm data

end Slices

/-- A Go `int` result: the 64 bit two's complement value of an integer. -/
def wrapInt (x : Int) : Int :=
  (x + 2 ^ 63) % 2 ^ 64 - 2 ^ 63

/-- `type Team struct { Name string; Players []string }` -/
structure Team where
  Name : String
  Players : List String

/-- `type League struct { Teams []Team; Wins map[string]int }`. The map is `none` while it
is nil, as in `League{Teams: ts}`, and `some m` once `make` has built it. -/
structure League where
  Teams : List Team
  Wins : Option (String → Option Int)

/-- The assignment `m[key] = value` on a map that `make` has built. -/
def mapSet (m : String → Option Int) (key : String) (value : Int) : String → Option Int :=
  fun k => if k = key then some value else m k

/-- The read `v, ok := m[key]`: `some v` for a key of the map, `none` where `ok` is false.
A nil map has no keys. -/
def mapFind (m : Option (String → Option Int)) (key : String) : Option Int :=
  match m with
  | none => none
  | some f => f key

/-- The read `m[key]`, which is 0 for an absent key. -/
def mapGet (m : Option (String → Option Int)) (key : String) : Int :=
  (mapFind m key).getD 0

/-- The statement `l.Wins[key] = value`. An assignment to an entry of a nil map panics:
`none`. -/
def League.setWins (l : League) (key : String) (value : Int) : Option League :=
  match l.Wins with
  | none => none
  | some m => some { l with Wins := some (mapSet m key value) }

/-- `NewLeague` builds the league of a roster: the teams as given and a map, built by
`make`, with `league.Wins[v.Name] = 0` for every team `v` of the roster, in order. -/
def NewLeague (teams : List Team) : League :=
  { Teams := teams
    Wins := some (teams.foldl (fun wins v => mapSet wins v.Name 0) (fun _ => none)) }

/-- `ValidateTeam`: `_, ok := l.Wins[teamName]; if !ok { l.Wins[teamName] = 0 }`. -/
def League.ValidateTeam (l : League) (teamName : String) : Option League :=
  if (mapFind l.Wins teamName).isSome then some l
  else l.setWins teamName 0

/-- `MatchResult` validates both names, then adds one to the count of the team with the
higher score (`l.Wins[team] += 1`); equal scores change nothing more. -/
def League.MatchResult (l : League) (team1 : String) (score1 : Int) (team2 : String)
    (score2 : Int) : Option League :=
  (l.ValidateTeam team1).bind fun l =>
  (l.ValidateTeam team2).bind fun l =>
  if score1 > score2 then l.setWins team1 (wrapInt (mapGet l.Wins team1 + 1))
  else if score2 > score1 then l.setWins team2 (wrapInt (mapGet l.Wins team2 + 1))
  else some l

/-- The comparison `Ranking` hands to the sort: `l.Wins[t2] - l.Wins[t1]`. -/
def League.rankCmp (l : League) (t1 t2 : String) : Int :=
  wrapInt (mapGet l.Wins t2 - mapGet l.Wins t1)

/-- The list of team names `Ranking` builds: `teams = append(teams, t.Name)` for every
team of `l.Teams`, starting from the empty slice. -/
def League.teamNames (l : League) : List String :=
  l.Teams.foldl (fun teams t => teams ++ [t.Name]) []

/-- `Ranking` (descending order): the freshly built list of names, sorted by
`slices.SortFunc`. The call returns the ranking and leaves the league as it found it,
since it writes neither `l.Teams` nor `l.Wins`. -/
def League.Ranking (l : League) : Option (List String × League) :=
  (Slices.SortFunc l.rankCmp l.teamNames).map fun teams => (teams, l)

/-- A call `l.MatchResult(team1, score1, team2, score2)`, as data. -/
structure Report where
  team1 : String
  score1 : Int
  team2 : String
  score2 : Int

/-- The league after a sequence of `MatchResult` calls, first call first; `none` when one
of the calls panics. -/
def League.play (l : League) : List Report → Option League
  | [] => some l
  | r :: rs => (l.MatchResult r.team1 r.score1 r.team2 r.score2).bind fun l => l.play rs

/-- Every count of the league lies between 0 and `k`. -/
def League.CountsUpTo (l : League) (k : Int) : Prop :=
  ∀ n, 0 ≤ mapGet l.Wins n ∧ mapGet l.Wins n ≤ k

/-- The roster `[A, B]` of the spec's examples. -/
def rosterAB : List Team :=
  [⟨"A", []⟩, ⟨"B", []⟩]

/-- The roster `[A, B, C]` of the spec's tie-break example. -/
def rosterABC : List Team :=
  [⟨"A", []⟩, ⟨"B", []⟩, ⟨"C", []⟩]

/-- The roster of `main`. -/
def mainRoster : List Team :=
  [⟨"Markham", ["Marcus", "Emma"]⟩, ⟨"Sauga", ["Olly", "Bony"]⟩, ⟨"Foo", ["a", "b"]⟩]

/-- The three `MatchResult` calls of `main`. -/
def mainReports : List Report :=
  [⟨"Markham", 10, "Foo", 12⟩, ⟨"Sauga", 10, "Foo", 12⟩, ⟨"Sauga", 10, "Markham", 12⟩]

/-- A roster of thirteen teams, `A` to `M`. -/
def roster13 : List Team :=
  ["A", "B", "C", "D", "E", "F", "G", "H", "I", "J", "K", "L", "M"].map fun n => ⟨n, []⟩

/-- The league `League{Teams: [A, B]}`, whose `Wins` map is nil. -/
def nilLeague : League :=
  { Teams := rosterAB, Wins := none }

/-- The league `League{Teams: [A, B], Wins: {A: math.MaxInt64, B: 0}}`. -/
def leagueAtMax : League :=
  { Teams := rosterAB
    Wins := some (mapSet (mapSet (fun _ => none) "A" (2 ^ 63 - 1)) "B" 0) }

/-- The ranking `out` keeps the roster order among teams with equal win counts: of two
roster names with the same count, the one that comes first in `l.Teams` comes first
in `out`. -/
def League.KeepsRosterOrder (l : League) (out : List String) : Prop :=
  ∀ x ∈ l.teamNames, ∀ y ∈ l.teamNames, mapGet l.Wins x = mapGet l.Wins y →
    l.teamNames.indexOf x < l.teamNames.indexOf y → out.indexOf x < out.indexOf y

/-! ## Integers and maps -/

theorem wrapInt_of_fits (x : Int) (h1 : -2 ^ 63 ≤ x) (h2 : x < 2 ^ 63) : wrapInt x = x := by
  unfold wrapInt
  omega

theorem NewLeague_fold (teams : List Team) (m : String → Option Int) (n : String) :
    teams.foldl (fun wins v => mapSet wins v.Name 0) m n
      = if n ∈ teams.map Team.Name then some 0 else m n := by
  induction teams generalizing m with
  | nil => simp
  | cons t ts ih =>
    simp only [List.foldl_cons, List.map_cons, List.mem_cons]
    rw [ih]
    by_cases h1 : n ∈ ts.map Team.Name
    · simp [h1]
    · by_cases h2 : n = t.Name
      · simp [h1, h2, mapSet]
      · simp [h1, h2, mapSet]

theorem NewLeague_Teams (teams : List Team) : (NewLeague teams).Teams = teams := rfl

theorem NewLeague_made (teams : List Team) : (NewLeague teams).Wins.isSome = true := rfl

theorem NewLeague_Wins (teams : List Team) (n : String) :
    mapFind (NewLeague teams).Wins n = if n ∈ teams.map Team.Name then some 0 else none := by
  simp only [NewLeague, mapFind]
  rw [NewLeague_fold]

theorem teamNames_fold (ts : List Team) (acc : List String) :
    ts.foldl (fun teams t => teams ++ [t.Name]) acc = acc ++ ts.map Team.Name := by
  induction ts generalizing acc with
  | nil => simp
  | cons t ts ih => simp [ih]

theorem teamNames_eq (l : League) : l.teamNames = l.Teams.map Team.Name := by
  simp [League.teamNames, teamNames_fold]

/-! ## `ValidateTeam` and `MatchResult` -/

theorem setWins_nil (l : League) (key : String) (value : Int) (h : l.Wins = none) :
    l.setWins key value = none := by
  unfold League.setWins
  rw [h]

theorem setWins_made (l : League) (key : String) (value : Int) (h : l.Wins.isSome = true) :
    ∃ l', l.setWins key value = some l' ∧ l'.Teams = l.Teams ∧ l'.Wins.isSome = true ∧
      ∀ n, mapFind l'.Wins n = if n = key then some value else mapFind l.Wins n := by
  unfold League.setWins
  cases hw : l.Wins with
  | none => simp [hw] at h
  | some m => exact ⟨_, rfl, rfl, rfl, fun n => rfl⟩

theorem ValidateTeam_nil (l : League) (t : String) (h : l.Wins = none) :
    l.ValidateTeam t = none := by
  unfold League.ValidateTeam
  rw [setWins_nil l t 0 h, h]
  rfl

theorem ValidateTeam_made (l : League) (t : String) (h : l.Wins.isSome = true) :
    ∃ l', l.ValidateTeam t = some l' ∧ l'.Teams = l.Teams ∧ l'.Wins.isSome = true ∧
      (∀ n, mapGet l'.Wins n = mapGet l.Wins n) ∧
      ∀ n, (mapFind l'.Wins n).isSome = ((mapFind l.Wins n).isSome || decide (n = t)) := by
  unfold League.ValidateTeam
  by_cases hk : (mapFind l.Wins t).isSome = true
  · rw [if_pos hk]
    refine ⟨l, rfl, rfl, h, fun _ => rfl, fun n => ?_⟩
    by_cases hn : n = t
    · subst hn
      simp [hk]
    · simp [hn]
  · rw [if_neg hk]
    obtain ⟨l', e, ht, hm, hf⟩ := setWins_made l t 0 h
    refine ⟨l', e, ht, hm, fun n => ?_, fun n => ?_⟩
    · unfold mapGet
      rw [hf]
      by_cases hn : n = t
      · subst hn
        cases hw : mapFind l.Wins n with
        | none => simp
        | some v => simp [hw] at hk
      · rw [if_neg hn]
    · rw [hf]
      by_cases hn : n = t
      · simp [hn]
      · simp [hn]

theorem MatchResult_nil (l : League) (t1 t2 : String) (s1 s2 : Int) (h : l.Wins = none) :
    l.MatchResult t1 s1 t2 s2 = none := by
  unfold League.MatchResult
  rw [ValidateTeam_nil l t1 h]
  rfl

/-- On a league whose map has been made `MatchResult` returns: the teams are untouched, the
map is still made, the counts are those of the `switch`, and the keys are the old ones and
the two names. -/
theorem MatchResult_made (l : League) (t1 t2 : String) (s1 s2 : Int)
    (h : l.Wins.isSome = true) :
    ∃ l', l.MatchResult t1 s1 t2 s2 = some l' ∧ l'.Teams = l.Teams ∧
      l'.Wins.isSome = true ∧
      (∀ n, mapGet l'.Wins n =
        if s1 > s2 then (if n = t1 then wrapInt (mapGet l.Wins t1 + 1) else mapGet l.Wins n)
        else if s2 > s1 then
          (if n = t2 then wrapInt (mapGet l.Wins t2 + 1) else mapGet l.Wins n)
        else mapGet l.Wins n) ∧
      ∀ n, (mapFind l'.Wins n).isSome =
        ((mapFind l.Wins n).isSome || decide (n = t1) || decide (n = t2)) := by
  unfold League.MatchResult
  obtain ⟨l1, e1, ht1, hm1, hg1, hk1⟩ := ValidateTeam_made l t1 h
  obtain ⟨l2, e2, ht2, hm2, hg2, hk2⟩ := ValidateTeam_made l1 t2 hm1
  simp only [e1, Option.some_bind, e2]
  have hg : ∀ n, mapGet l2.Wins n = mapGet l.Wins n := fun n => (hg2 n).trans (hg1 n)
  have hk : ∀ n, (mapFind l2.Wins n).isSome =
      ((mapFind l.Wins n).isSome || decide (n = t1) || decide (n = t2)) := fun n => by
    rw [hk2, hk1]
  have add : ∀ t, t = t1 ∨ t = t2 →
      ∃ l', l2.setWins t (wrapInt (mapGet l2.Wins t + 1)) = some l' ∧
      l'.Teams = l.Teams ∧ l'.Wins.isSome = true ∧
      (∀ n, mapGet l'.Wins n =
        if n = t then wrapInt (mapGet l.Wins t + 1) else mapGet l.Wins n) ∧
      ∀ n, (mapFind l'.Wins n).isSome =
        ((mapFind l.Wins n).isSome || decide (n = t1) || decide (n = t2)) := fun t htt => by
    obtain ⟨l', e, ht, hm, hf⟩ := setWins_made l2 t (wrapInt (mapGet l2.Wins t + 1)) hm2
    refine ⟨l', e, by rw [ht, ht2, ht1], hm, fun n => ?_, fun n => ?_⟩
    · show (mapFind l'.Wins n).getD 0 = _
      rw [hf]
      by_cases hn : n = t
      · rw [if_pos hn, if_pos hn, hg t]
        rfl
      · rw [if_neg hn, if_neg hn]
        exact hg n
    · rw [hf]
      by_cases hnt : n = t
      · rw [if_pos hnt]
        rcases htt with e | e <;> simp [hnt, e]
      · rw [if_neg hnt]
        exact hk n
  by_cases c1 : s1 > s2
  · rw [if_pos c1]
    obtain ⟨l', e, ht, hm, hget, hkeys⟩ := add t1 (Or.inl rfl)
    exact ⟨l', e, ht, hm, fun n => by rw [if_pos c1]; exact hget n, hkeys⟩
  · rw [if_neg c1]
    by_cases c2 : s2 > s1
    · rw [if_pos c2]
      obtain ⟨l', e, ht, hm, hget, hkeys⟩ := add t2 (Or.inr rfl)
      exact ⟨l', e, ht, hm, fun n => by rw [if_neg c1, if_pos c2]; exact hget n, hkeys⟩
    · rw [if_neg c2]
      exact ⟨l2, rfl, by rw [ht2, ht1], hm2, fun n => by rw [if_neg c1, if_neg c2]; exact hg n,
        hk⟩

/-- `MatchResult` returns exactly on the leagues whose map has been made. -/
theorem MatchResult_returns (l l' : League) (t1 t2 : String) (s1 s2 : Int)
    (h : l.MatchResult t1 s1 t2 s2 = some l') : l.Wins.isSome = true := by
  cases hw : l.Wins with
  | none =>
    rw [MatchResult_nil l t1 t2 s1 s2 hw] at h
    simp at h
  | some m => rfl

theorem NewLeague_counts (teams : List Team) : (NewLeague teams).CountsUpTo 0 := by
  intro n
  unfold mapGet
  rw [NewLeague_Wins]
  split <;> simp

theorem MatchResult_counts (l l' : League) (k : Int) (h : l.CountsUpTo k)
    (hk : k + 1 < 2 ^ 63) (t1 t2 : String) (s1 s2 : Int)
    (hl : (∀ n, mapGet l'.Wins n =
        if s1 > s2 then (if n = t1 then wrapInt (mapGet l.Wins t1 + 1) else mapGet l.Wins n)
        else if s2 > s1 then
          (if n = t2 then wrapInt (mapGet l.Wins t2 + 1) else mapGet l.Wins n)
        else mapGet l.Wins n)) :
    l'.CountsUpTo (k + 1) ∧ ∀ n, mapGet l.Wins n ≤ mapGet l'.Wins n := by
  have hw : ∀ t, wrapInt (mapGet l.Wins t + 1) = mapGet l.Wins t + 1 := fun t =>
    wrapInt_of_fits _ (by have := h t; omega) (by have := h t; omega)
  refine ⟨fun n => ?_, fun n => ?_⟩ <;>
  · rw [hl]
    have hn := h n
    have h1 := h t1
    have h2 := h t2
    simp only [hw]
    split_ifs <;> (try subst n) <;> omega

theorem play_nil (l : League) : l.play [] = some l := rfl

theorem play_cons (l : League) (r : Report) (rs : List Report) :
    l.play (r :: rs) =
      (l.MatchResult r.team1 r.score1 r.team2 r.score2).bind fun l => l.play rs := rfl

/-- On a league whose map has been made every sequence of calls returns, with the teams
untouched and the map still made. -/
theorem play_made (l : League) (rs : List Report) (h : l.Wins.isSome = true) :
    ∃ l', l.play rs = some l' ∧ l'.Teams = l.Teams ∧ l'.Wins.isSome = true := by
  induction rs generalizing l with
  | nil => exact ⟨l, rfl, rfl, h⟩
  | cons r rs ih =>
    obtain ⟨l1, e1, ht1, hm1, _, _⟩ := MatchResult_made l r.team1 r.team2 r.score1 r.score2 h
    obtain ⟨l2, e2, ht2, hm2⟩ := ih l1 hm1
    exact ⟨l2, by rw [play_cons, e1]; exact e2, by rw [ht2, ht1], hm2⟩

theorem play_counts (l l' : League) (k : Int) (h : l.CountsUpTo k) (rs : List Report)
    (hk : k + rs.length < 2 ^ 63) (hp : l.play rs = some l') :
    l'.CountsUpTo (k + rs.length) ∧
    (∀ n, mapGet l.Wins n ≤ mapGet l'.Wins n) ∧
    (∀ n, (mapFind l.Wins n).isSome → (mapFind l'.Wins n).isSome) := by
  induction rs generalizing l k with
  | nil =>
    simp only [play_nil, Option.some.injEq] at hp
    subst hp
    simp only [List.length_nil, Nat.cast_zero, add_zero]
    exact ⟨h, fun _ => le_refl _, fun _ hn => hn⟩
  | cons r rs ih =>
    rw [play_cons] at hp
    cases hm : l.MatchResult r.team1 r.score1 r.team2 r.score2 with
    | none => simp [hm] at hp
    | some l1 =>
      simp only [hm, Option.some_bind] at hp
      obtain ⟨l1', e, _, _, hget, hkeys⟩ := MatchResult_made l r.team1 r.team2 r.score1
        r.score2 (MatchResult_returns l l1 _ _ _ _ hm)
      rw [hm] at e
      simp only [Option.some.injEq] at e
      subst e
      simp only [List.length_cons, Nat.cast_add, Nat.cast_one] at hk ⊢
      have h1 := MatchResult_counts l l1 k h (by omega) r.team1 r.team2 r.score1 r.score2 hget
      have h2 := ih l1 (k + 1) h1.1 (by omega) hp
      refine ⟨?_, fun n => ?_, fun n hn => ?_⟩
      · have := h2.1
        rwa [show k + 1 + (rs.length : Int) = k + (rs.length + 1) by ring] at this
      · exact le_trans (h1.2 n) (h2.2.1 n)
      · apply h2.2.2
        rw [hkeys, hn]
        rfl

theorem reached_counts (roster : List Team) (rs : List Report) (l : League)
    (hk : rs.length < 2 ^ 63) (hp : (NewLeague roster).play rs = some l) :
    l.CountsUpTo rs.length := by
  have := (play_counts _ l 0 (NewLeague_counts roster) rs (by
    have : ((rs.length : Nat) : Int) < 2 ^ 63 := by exact_mod_cast hk
    omega) hp).1
  simpa using this

/-- Every sequence of calls on a league built by `NewLeague` returns a league with the
roster as its teams. -/
theorem reached (roster : List Team) (rs : List Report) :
    ∃ l, (NewLeague roster).play rs = some l ∧ l.Teams = roster :=
  let ⟨l, e, ht, _⟩ := play_made (NewLeague roster) rs (NewLeague_made roster)
  ⟨l, e, ht⟩

/-! ## The sort always returns a permutation

Every helper of `pdqsortCmpFunc` is shown to return, within the index bounds its caller
guarantees and with the step counter its caller hands out, a permutation of its input.
No property of `cmp` is used. -/

namespace Slices

variable {E : Type}

theorem cons_set_perm (y a : E) : ∀ (t : List E) (j : Nat), t[j]? = some y →
    (y :: t.set j a).Perm (a :: t)
  | [], j, h => by simp at h
  | b :: s, 0, h => by
    simp only [List.getElem?_cons_zero, Option.some.injEq] at h
    subst h
    exact List.Perm.swap _ _ _
  | b :: s, j + 1, h => by
    simp only [List.getElem?_cons_succ] at h
    simp only [List.set_cons_succ]
    exact (List.Perm.swap _ _ _).trans (((cons_set_perm y a s j h).cons b).trans
      (List.Perm.swap _ _ _))

theorem set_set_perm (x y : E) : ∀ (l : List E) (i j : Nat), l[i]? = some x → l[j]? = some y →
    ((l.set i y).set j x).Perm l
  | [], i, j, h, _ => by simp at h
  | a :: t, 0, 0, h1, h2 => by
    simp only [List.getElem?_cons_zero, Option.some.injEq] at h1
    subst h1
    simp
  | a :: t, 0, j + 1, h1, h2 => by
    simp only [List.getElem?_cons_zero, Option.some.injEq] at h1
    simp only [List.getElem?_cons_succ] at h2
    subst h1
    simpa using cons_set_perm y a t j h2
  | a :: t, i + 1, 0, h1, h2 => by
    simp only [List.getElem?_cons_zero, Option.some.injEq] at h2
    simp only [List.getElem?_cons_succ] at h1
    subst h2
    simpa using cons_set_perm x a t i h1
  | a :: t, i + 1, j + 1, h1, h2 => by
    simp only [List.getElem?_cons_succ] at h1 h2
    simpa using (set_set_perm x y t i j h1 h2).cons a

/-- What a successful swap gives: both indices were in range, the result is a permutation
of the same length, and its entries are those of the input with `i` and `j` exchanged. -/
theorem swap_inv {data d' : List E} {i j : Nat} (h : swap data i j = some d') :
    i < data.length ∧ j < data.length ∧ d'.length = data.length ∧ d'.Perm data ∧
    ∀ k, d'[k]? = if k = j then data[i]? else if k = i then data[j]? else data[k]? := by
  unfold swap at h
  cases hx : data[i]? with
  | none => simp [hx] at h
  | some x =>
    cases hy : data[j]? with
    | none => simp [hx, hy] at h
    | some y =>
      simp only [hx, hy, Option.some.injEq] at h
      subst h
      have hi : i < data.length := (List.getElem?_eq_some.mp hx).1
      have hj : j < data.length := (List.getElem?_eq_some.mp hy).1
      refine ⟨hi, hj, by simp, set_set_perm x y data i j hx hy, fun k => ?_⟩
      rw [List.getElem?_set, List.getElem?_set]
      by_cases h1 : k = j
      · subst h1
        simp [hj]
      · by_cases h2 : k = i
        · subst h2
          simp [hi, Ne.symm h1, h1, hy]
        · simp [h1, h2, Ne.symm h1, Ne.symm h2]

theorem swap_some {d : List E} {i j : Nat} (hi : i < d.length) (hj : j < d.length) :
    ∃ d', swap d i j = some d' := by
  unfold swap
  rw [List.getElem?_eq_getElem hi, List.getElem?_eq_getElem hj]
  exact ⟨_, rfl⟩

theorem less_some (cmp : E → E → Int) {data : List E} {i j : Nat} (hi : i < data.length)
    (hj : j < data.length) : ∃ c, less cmp data i j = some c := by
  unfold less
  rw [List.getElem?_eq_getElem hi, List.getElem?_eq_getElem hj]
  exact ⟨_, rfl⟩

theorem Ok.pure (data : List E) : Ok data (some data) :=
  ⟨data, rfl, List.Perm.refl _⟩

theorem Ok.bind {data : List E} {r : Option (List E)} {f : List E → Option (List E)}
    (h : Ok data r) (hf : ∀ d', d'.Perm data → d'.length = data.length → Ok d' (f d')) :
    Ok data (r.bind f) := by
  obtain ⟨d1, rfl, p1⟩ := h
  obtain ⟨d2, h2, p2⟩ := hf d1 p1 p1.length_eq
  exact ⟨d2, h2, p2.trans p1⟩

theorem swap_ok {data : List E} {i j : Nat} (hi : i < data.length) (hj : j < data.length) :
    Ok data (swap data i j) := by
  obtain ⟨d', h⟩ := swap_some hi hj
  exact ⟨d', h, (swap_inv h).2.2.2.1⟩

end Slices

namespace Slices

variable {E : Type}

theorem insertionInner_ok (cmp : E → E → Int) (a : Nat) :
    ∀ (j : Nat) (data : List E), j < data.length → Ok data (insertionInner cmp a j data)
  | 0, data, _ => Ok.pure data
  | j + 1, data, h => by
    unfold insertionInner
    split
    · obtain ⟨c, hc⟩ := less_some cmp h (show j < data.length by omega)
      rw [hc]
      cases c
      · exact Ok.pure data
      · exact (swap_ok h (by omega)).bind fun d' _ hl =>
          insertionInner_ok cmp a j d' (by omega)
    · exact Ok.pure data

theorem insertionOuter_ok (cmp : E → E → Int) (a b : Nat) :
    ∀ (fuel i : Nat) (data : List E), b ≤ data.length → b ≤ fuel + i →
      Ok data (insertionOuter cmp a b fuel i data)
  | 0, i, data, _, h => by
    unfold insertionOuter
    rw [if_neg (by omega)]
    exact Ok.pure data
  | fuel + 1, i, data, hb, h => by
    unfold insertionOuter
    split
    · exact (insertionInner_ok cmp a i data (by omega)).bind fun d' _ hl =>
        insertionOuter_ok cmp a b fuel (i + 1) d' (by omega) (by omega)
    · exact Ok.pure data

theorem insertionSortCmpFunc_ok (cmp : E → E → Int) (data : List E) (a b : Nat)
    (hb : b ≤ data.length) : Ok data (insertionSortCmpFunc cmp data a b) :=
  insertionOuter_ok cmp a b _ _ data hb (by omega)

theorem siftDownLoop_ok (cmp : E → E → Int) (hi first : Nat) :
    ∀ (fuel root : Nat) (data : List E), first + hi ≤ data.length → hi - root < fuel →
      Ok data (siftDownLoop cmp hi first fuel root data)
  | 0, _, _, _, h => by omega
  | fuel + 1, root, data, hlen, h => by
    unfold siftDownLoop
    simp only
    split
    · exact Ok.pure data
    · rename_i hc
      by_cases h1 : 2 * root + 1 + 1 < hi
      · rw [if_pos h1]
        obtain ⟨c, hc1⟩ := less_some cmp (show first + (2 * root + 1) < data.length by omega)
          (show first + (2 * root + 1) + 1 < data.length by omega)
        rw [hc1]
        simp only
        obtain ⟨c2, hc2⟩ := less_some cmp (show first + root < data.length by omega)
          (show first + (if c = true then 2 * root + 1 + 1 else 2 * root + 1) < data.length by
            split <;> omega)
        rw [hc2]
        cases c2
        · exact Ok.pure data
        · exact (swap_ok (by omega) (by split <;> omega)).bind fun d' _ hl =>
            siftDownLoop_ok cmp hi first fuel _ d' (by omega) (by split <;> omega)
      · rw [if_neg h1]
        simp only
        obtain ⟨c2, hc2⟩ := less_some cmp (show first + root < data.length by omega)
          (show first + (2 * root + 1) < data.length by omega)
        simp only [Bool.false_eq_true, if_false]
        rw [hc2]
        cases c2
        · exact Ok.pure data
        · exact (swap_ok (by omega) (by omega)).bind fun d' _ hl =>
            siftDownLoop_ok cmp hi first fuel _ d' (by omega) (by omega)

theorem siftDownCmpFunc_ok (cmp : E → E → Int) (data : List E) (lo hi first : Nat)
    (hlen : first + hi ≤ data.length) : Ok data (siftDownCmpFunc cmp data lo hi first) :=
  siftDownLoop_ok cmp hi first _ lo data hlen (by omega)

theorem heapBuild_ok (cmp : E → E → Int) (hi first : Nat) :
    ∀ (i : Nat) (data : List E), first + hi ≤ data.length →
      Ok data (heapBuild cmp hi first i data)
  | 0, data, _ => Ok.pure data
  | i + 1, data, h => by
    unfold heapBuild
    exact (siftDownCmpFunc_ok cmp data i hi first h).bind fun d' _ hl =>
      heapBuild_ok cmp hi first i d' (by omega)

theorem heapPop_ok (cmp : E → E → Int) (first : Nat) :
    ∀ (i : Nat) (data : List E), first + i ≤ data.length → Ok data (heapPop cmp first i data)
  | 0, data, _ => Ok.pure data
  | i + 1, data, h => by
    unfold heapPop
    exact (swap_ok (by omega) (by omega)).bind fun d1 _ hl1 =>
      (siftDownCmpFunc_ok cmp d1 0 i first (by omega)).bind fun d2 _ hl2 =>
        heapPop_ok cmp first i d2 (by omega)

theorem heapSortCmpFunc_ok (cmp : E → E → Int) (data : List E) (a b : Nat) (hab : a ≤ b)
    (hb : b ≤ data.length) : Ok data (heapSortCmpFunc cmp data a b) := by
  unfold heapSortCmpFunc
  exact (heapBuild_ok cmp (b - a) a _ data (by omega)).bind fun d1 _ hl1 =>
    heapPop_ok cmp a (b - a) d1 (by omega)

end Slices

namespace Slices

variable {E : Type}

theorem scanUp_ok (test : Nat → Option Bool) (j : Nat) :
    ∀ (fuel i : Nat), (∀ k, i ≤ k → k ≤ j → ∃ c, test k = some c) → j + 1 ≤ fuel + i →
      ∃ i', scanUp test j fuel i = some i' ∧ i ≤ i' ∧ (i' ≤ j + 1 ∨ i' = i)
  | 0, i, _, h => by
    unfold scanUp
    rw [if_neg (by omega)]
    exact ⟨i, rfl, le_refl _, Or.inr rfl⟩
  | fuel + 1, i, ht, h => by
    unfold scanUp
    split
    · rename_i hij
      obtain ⟨c, hc⟩ := ht i (le_refl _) hij
      rw [hc]
      cases c
      · exact ⟨i, rfl, le_refl _, Or.inr rfl⟩
      · obtain ⟨i', h1, h2, h3⟩ := scanUp_ok test j fuel (i + 1)
          (fun k hk1 hk2 => ht k (by omega) hk2) (by omega)
        exact ⟨i', h1, by omega, by omega⟩
    · exact ⟨i, rfl, le_refl _, Or.inr rfl⟩

theorem scanDown_ok (test : Nat → Option Bool) (i : Nat) (hi : 1 ≤ i) :
    ∀ (fuel j : Nat), (∀ k, i ≤ k → k ≤ j → ∃ c, test k = some c) → j + 1 ≤ fuel + i →
      ∃ j', scanDown test i fuel j = some j' ∧ j' ≤ j ∧ (i ≤ j' + 1 ∨ j' = j)
  | 0, j, _, h => by
    unfold scanDown
    rw [if_neg (by omega)]
    exact ⟨j, rfl, le_refl _, Or.inr rfl⟩
  | fuel + 1, j, ht, h => by
    unfold scanDown
    split
    · rename_i hij
      obtain ⟨c, hc⟩ := ht j hij (le_refl _)
      rw [hc]
      cases c
      · exact ⟨j, rfl, le_refl _, Or.inr rfl⟩
      · obtain ⟨j', h1, h2, h3⟩ := scanDown_ok test i hi fuel (j - 1)
          (fun k hk1 hk2 => ht k hk1 (by omega)) (by omega)
        exact ⟨j', h1, by omega, by omega⟩
    · exact ⟨j, rfl, le_refl _, Or.inr rfl⟩

theorem partitionLoop_ok (up down : List E → Nat → Option Bool) (n : Nat)
    (hup : ∀ (d : List E) k, d.length = n → k < n → ∃ c, up d k = some c)
    (hdown : ∀ (d : List E) k, d.length = n → k < n → ∃ c, down d k = some c) :
    ∀ (fuel i j : Nat) (data : List E), data.length = n → 1 ≤ i → j < n → j + 1 - i < fuel →
      ∃ d' i' j', partitionLoop up down fuel i j data = some (d', i', j') ∧ d'.Perm data ∧
        i ≤ i' ∧ j' ≤ j ∧ (i' ≤ j + 1 ∨ i' = i) ∧ (i ≤ j' + 1 ∨ j' = j)
  | 0, _, _, _, _, _, _, h => by omega
  | fuel + 1, i, j, data, hlen, hi, hj, h => by
    unfold partitionLoop
    obtain ⟨i1, e1, h1, h1'⟩ := scanUp_ok (up data) j (j + 1 - i) i
      (fun k _ hk => hup data k hlen (by omega)) (by omega)
    obtain ⟨j1, e2, h2, h2'⟩ := scanDown_ok (down data) i1 (by omega) (j + 1 - i1) j
      (fun k _ hk => hdown data k hlen (by omega)) (by omega)
    simp only [e1, e2, Option.some_bind]
    split
    · exact ⟨data, i1, j1, rfl, List.Perm.refl _, h1, h2, h1', by omega⟩
    · rename_i hgt
      obtain ⟨d1, e3⟩ := swap_some (d := data) (i := i1) (j := j1) (by omega) (by omega)
      have s := swap_inv e3
      obtain ⟨d', i', j', e4, p, b1, b2, b3, b4⟩ := partitionLoop_ok up down n hup hdown
        fuel (i1 + 1) (j1 - 1) d1 (by omega) (by omega) (by omega) (by omega)
      simp only [e3, Option.some_bind, e4]
      exact ⟨d', i', j', rfl, p.trans s.2.2.2.1, by omega, by omega, by omega, by omega⟩

theorem partitionCmpFunc_ok (cmp : E → E → Int) (data : List E) (a b pivot : Nat)
    (hap : a ≤ pivot) (hpb : pivot < b) (hb : b ≤ data.length) :
    ∃ d' mid ap, partitionCmpFunc cmp data a b pivot = some (d', mid, ap) ∧ d'.Perm data ∧
      a ≤ mid ∧ mid < b := by
  unfold partitionCmpFunc
  simp only
  obtain ⟨d0, e0⟩ := swap_some (d := data) (i := a) (j := pivot) (by omega) (by omega)
  have s0 := swap_inv e0
  have hup : ∀ (d : List E) k, d.length = data.length → k < data.length →
      ∃ c, less cmp d k a = some c := fun d k hl hk =>
    less_some cmp (by omega) (by omega)
  have hdown : ∀ (d : List E) k, d.length = data.length → k < data.length →
      ∃ c, (less cmp d k a).map not = some c := fun d k hl hk => by
    obtain ⟨c, hc⟩ := hup d k hl hk
    exact ⟨!c, by rw [hc]; rfl⟩
  obtain ⟨i1, e1, h1, h1'⟩ := scanUp_ok (fun k => less cmp d0 k a) (b - 1) (b - 1 + 1 - (a + 1))
    (a + 1) (fun k _ hk => hup d0 k s0.2.2.1 (by omega)) (by omega)
  obtain ⟨j1, e2, h2, h2'⟩ := scanDown_ok (fun k => (less cmp d0 k a).map not) i1 (by omega)
    (b - 1 + 1 - i1) (b - 1) (fun k _ hk => hdown d0 k s0.2.2.1 (by omega)) (by omega)
  simp only [e0, Option.some_bind, e1, e2]
  split
  · obtain ⟨d1, e3⟩ := swap_some (d := d0) (i := j1) (j := a) (by omega) (by omega)
    have s1 := swap_inv e3
    simp only [e3, Option.some_bind]
    exact ⟨d1, j1, true, rfl, s1.2.2.2.1.trans s0.2.2.2.1, by omega, by omega⟩
  · obtain ⟨d1, e3⟩ := swap_some (d := d0) (i := i1) (j := j1) (by omega) (by omega)
    have s1 := swap_inv e3
    obtain ⟨d2, i2, j2, e4, p, b1, b2, b3, b4⟩ := partitionLoop_ok
      (fun (d : List E) k => less cmp d k a) (fun (d : List E) k => (less cmp d k a).map not)
      data.length hup hdown (b - a) (i1 + 1) (j1 - 1) d1 (by omega) (by omega) (by omega)
      (by omega)
    obtain ⟨d3, e5⟩ := swap_some (d := d2) (i := j2) (j := a)
      (by have := p.length_eq; omega) (by have := p.length_eq; omega)
    have s3 := swap_inv e5
    simp only [e3, Option.some_bind, e4, e5]
    exact ⟨d3, j2, false, rfl, s3.2.2.2.1.trans (p.trans (s1.2.2.2.1.trans s0.2.2.2.1)),
      by omega, by omega⟩

theorem partitionEqualCmpFunc_ok (cmp : E → E → Int) (data : List E) (a b pivot : Nat)
    (hap : a ≤ pivot) (hpb : pivot < b) (hb : b ≤ data.length) :
    ∃ d' mid, partitionEqualCmpFunc cmp data a b pivot = some (d', mid) ∧ d'.Perm data ∧
      a < mid ∧ mid ≤ b := by
  unfold partitionEqualCmpFunc
  simp only
  obtain ⟨d0, e0⟩ := swap_some (d := data) (i := a) (j := pivot) (by omega) (by omega)
  have s0 := swap_inv e0
  have hdown : ∀ (d : List E) k, d.length = data.length → k < data.length →
      ∃ c, less cmp d a k = some c := fun d k hl hk =>
    less_some cmp (by omega) (by omega)
  have hup : ∀ (d : List E) k, d.length = data.length → k < data.length →
      ∃ c, (less cmp d a k).map not = some c := fun d k hl hk => by
    obtain ⟨c, hc⟩ := hdown d k hl hk
    exact ⟨!c, by rw [hc]; rfl⟩
  obtain ⟨d2, i2, j2, e4, p, b1, b2, b3, b4⟩ := partitionLoop_ok
    (fun (d : List E) k => (less cmp d a k).map not) (fun (d : List E) k => less cmp d a k)
    data.length hup hdown (b - a + 1) (a + 1) (b - 1) d0 s0.2.2.1 (by omega) (by omega)
    (by omega)
  simp only [e0, Option.some_bind, e4]
  exact ⟨d2, i2, rfl, p.trans s0.2.2.2.1, by omega, by omega⟩

end Slices

namespace Slices

variable {E : Type}

theorem scanSorted_ok (cmp : E → E → Int) (data : List E) (b : Nat) (hb : b ≤ data.length) :
    ∀ (fuel i : Nat), 1 ≤ i → b ≤ fuel + i →
      ∃ i', scanSorted cmp data b fuel i = some i' ∧ i ≤ i' ∧ (i' ≤ b ∨ i' = i)
  | 0, i, _, h => by
    unfold scanSorted
    rw [if_neg (by omega)]
    exact ⟨i, rfl, le_refl _, Or.inr rfl⟩
  | fuel + 1, i, hi, h => by
    unfold scanSorted
    split
    · obtain ⟨c, hc⟩ := less_some cmp (show i < data.length by omega)
        (show i - 1 < data.length by omega)
      rw [hc]
      cases c
      · obtain ⟨i', h1, h2, h3⟩ := scanSorted_ok cmp data b hb fuel (i + 1) (by omega) (by omega)
        exact ⟨i', h1, by omega, by omega⟩
      · exact ⟨i, rfl, le_refl _, Or.inr rfl⟩
    · exact ⟨i, rfl, le_refl _, Or.inr rfl⟩

theorem shiftLeft_ok (cmp : E → E → Int) :
    ∀ (j : Nat) (data : List E), j < data.length → Ok data (shiftLeft cmp j data)
  | 0, data, _ => Ok.pure data
  | j + 1, data, h => by
    unfold shiftLeft
    obtain ⟨c, hc⟩ := less_some cmp h (show j < data.length by omega)
    rw [hc]
    cases c
    · exact Ok.pure data
    · exact (swap_ok h (by omega)).bind fun d' _ hl => shiftLeft_ok cmp j d' (by omega)

theorem shiftRight_ok (cmp : E → E → Int) (b : Nat) :
    ∀ (fuel j : Nat) (data : List E), b ≤ data.length → b ≤ fuel + j →
      Ok data (shiftRight cmp b fuel j data)
  | 0, j, data, _, h => by
    unfold shiftRight
    rw [if_neg (by omega)]
    exact Ok.pure data
  | fuel + 1, j, data, hb, h => by
    unfold shiftRight
    split
    · obtain ⟨c, hc⟩ := less_some cmp (show j < data.length by omega)
        (show j - 1 < data.length by omega)
      rw [hc]
      cases c
      · exact Ok.pure data
      · exact (swap_ok (by omega) (by omega)).bind fun d' _ hl =>
          shiftRight_ok cmp b fuel (j + 1) d' (by omega) (by omega)
    · exact Ok.pure data

theorem partialInsertionLoop_ok (cmp : E → E → Int) (a b : Nat) :
    ∀ (steps i : Nat) (data : List E), b ≤ data.length → 1 ≤ i → (50 ≤ b - a → i ≤ b) →
      ∃ d' flag, partialInsertionLoop cmp a b steps i data = some (d', flag) ∧ d'.Perm data
  | 0, _, data, _, _, _ => ⟨data, false, rfl, List.Perm.refl _⟩
  | steps + 1, i, data, hb, hi, hib => by
    unfold partialInsertionLoop
    obtain ⟨i1, e1, h1, h1'⟩ := scanSorted_ok cmp data b hb (b - i) i hi (by omega)
    simp only [e1, Option.some_bind]
    split
    · exact ⟨data, true, rfl, List.Perm.refl _⟩
    · split
      · exact ⟨data, false, rfl, List.Perm.refl _⟩
      · have hi1 : i1 < b := by omega
        obtain ⟨d1, e2, p1⟩ : Ok data (swap data i1 (i1 - 1)) := swap_ok (by omega) (by omega)
        have l1 := p1.length_eq
        obtain ⟨d2, e3, p2⟩ : Ok d1 (if i1 - a ≥ 2 then shiftLeft cmp (i1 - 1) d1
            else some d1) := by
          split
          · exact shiftLeft_ok cmp _ d1 (by omega)
          · exact Ok.pure d1
        have l2 := p2.length_eq
        obtain ⟨d3, e4, p3⟩ : Ok d2 (if b - i1 ≥ 2 then shiftRight cmp b (b - i1) (i1 + 1) d2
            else some d2) := by
          split
          · exact shiftRight_ok cmp b _ _ d2 (by omega) (by omega)
          · exact Ok.pure d2
        have l3 := p3.length_eq
        obtain ⟨d', flag, e5, p4⟩ := partialInsertionLoop_ok cmp a b steps i1 d3
          (by omega) (by omega) (fun _ => by omega)
        simp only [e2, Option.some_bind, e3, e4, e5]
        exact ⟨d', flag, rfl, p4.trans (p3.trans (p2.trans p1))⟩

theorem partialInsertionSortCmpFunc_ok (cmp : E → E → Int) (data : List E) (a b : Nat)
    (hb : b ≤ data.length) :
    ∃ d' flag, partialInsertionSortCmpFunc cmp data a b = some (d', flag) ∧ d'.Perm data :=
  partialInsertionLoop_ok cmp a b 5 (a + 1) data hb (by omega) (fun _ => by omega)

theorem bitsLenAux_le (fuel : Nat) : ∀ x, 1 ≤ x → 2 ^ bitsLenAux fuel x ≤ 2 * x := by
  induction fuel with
  | zero => intro x hx; simp [bitsLenAux]; omega
  | succ fuel ih =>
    intro x hx
    unfold bitsLenAux
    rw [if_neg (by omega), pow_succ]
    by_cases h : x / 2 = 0
    · have : bitsLenAux fuel (x / 2) = 0 := by
        rw [h]
        cases fuel <;> simp [bitsLenAux]
      rw [this]
      omega
    · have := ih (x / 2) (by omega)
      omega

theorem nextPowerOfTwo_le (length : Nat) (h : 1 ≤ length) :
    nextPowerOfTwo length ≤ 2 * length :=
  bitsLenAux_le 64 length h

theorem breakPatternsLoop_ok (a length modulus idx : Nat) (hl : 1 ≤ length)
    (hm : modulus ≤ 2 * length) :
    ∀ (n i random : Nat) (data : List E), a + length ≤ data.length →
      idx + i + n ≤ data.length →
      Ok data (breakPatternsLoop a length modulus idx n i random data)
  | 0, _, _, data, _, _ => Ok.pure data
  | n + 1, i, random, data, h1, h2 => by
    unfold breakPatternsLoop
    simp only
    have hand : xorshiftNext random &&& (modulus - 1) ≤ modulus - 1 := Nat.and_le_right
    refine (swap_ok (by omega) (by split <;> omega)).bind fun d' _ hl' =>
      breakPatternsLoop_ok a length modulus idx hl hm n (i + 1) _ d' (by omega) (by omega)

theorem breakPatternsCmpFunc_ok (data : List E) (a b : Nat) (hab : a ≤ b)
    (hb : b ≤ data.length) : Ok data (breakPatternsCmpFunc data a b) := by
  unfold breakPatternsCmpFunc
  simp only
  split
  · exact breakPatternsLoop_ok a (b - a) _ _ (by omega) (nextPowerOfTwo_le _ (by omega))
      3 0 _ data (by omega) (by omega)
  · exact Ok.pure data

theorem order2CmpFunc_ok (cmp : E → E → Int) (data : List E) (a b swaps : Nat)
    (ha : a < data.length) (hb : b < data.length) :
    ∃ x y s, order2CmpFunc cmp data a b swaps = some (x, y, s) ∧
      ((x = a ∧ y = b) ∨ (x = b ∧ y = a)) := by
  unfold order2CmpFunc
  obtain ⟨c, hc⟩ := less_some cmp hb ha
  rw [hc]
  cases c
  · exact ⟨a, b, swaps, rfl, Or.inl ⟨rfl, rfl⟩⟩
  · exact ⟨b, a, swaps + 1, rfl, Or.inr ⟨rfl, rfl⟩⟩

theorem medianCmpFunc_ok (cmp : E → E → Int) (data : List E) (a b c swaps : Nat)
    (ha : a < data.length) (hb : b < data.length) (hc : c < data.length) :
    ∃ m s, medianCmpFunc cmp data a b c swaps = some (m, s) ∧ (m = a ∨ m = b ∨ m = c) := by
  unfold medianCmpFunc
  obtain ⟨x1, y1, s1, e1, h1⟩ := order2CmpFunc_ok cmp data a b swaps ha hb
  simp only [e1, Option.some_bind]
  have hx1 : x1 = a ∨ x1 = b := by rcases h1 with ⟨h, _⟩ | ⟨h, _⟩ <;> simp [h]
  have hy1 : y1 = a ∨ y1 = b := by rcases h1 with ⟨_, h⟩ | ⟨_, h⟩ <;> simp [h]
  obtain ⟨x2, y2, s2, e2, h2⟩ := order2CmpFunc_ok cmp data y1 c s1
    (by rcases hy1 with h | h <;> rw [h] <;> assumption) hc
  simp only [e2, Option.some_bind]
  have hx2 : x2 = a ∨ x2 = b ∨ x2 = c := by
    rcases h2 with ⟨h, _⟩ | ⟨h, _⟩
    · rcases hy1 with h' | h' <;> simp [h, h']
    · simp [h]
  obtain ⟨x3, y3, s3, e3, h3⟩ := order2CmpFunc_ok cmp data x1 x2 s2
    (by rcases hx1 with h | h <;> rw [h] <;> assumption)
    (by rcases hx2 with h | h | h <;> rw [h] <;> assumption)
  simp only [e3, Option.some_bind]
  refine ⟨y3, s3, rfl, ?_⟩
  rcases h3 with ⟨_, h⟩ | ⟨_, h⟩
  · rw [h]; exact hx2
  · rw [h]
    rcases hx1 with h' | h' <;> simp [h']

theorem medianAdjacentCmpFunc_ok (cmp : E → E → Int) (data : List E) (a swaps : Nat)
    (ha : 1 ≤ a) (ha' : a + 1 < data.length) :
    ∃ m s, medianAdjacentCmpFunc cmp data a swaps = some (m, s) ∧ a ≤ m + 1 ∧ m ≤ a + 1 := by
  obtain ⟨m, s, e, h⟩ := medianCmpFunc_ok cmp data (a - 1) a (a + 1) swaps (by omega)
    (by omega) ha'
  exact ⟨m, s, e, by omega, by omega⟩

theorem choosePivotCmpFunc_ok (cmp : E → E → Int) (data : List E) (a b : Nat) (hab : a < b)
    (hb : b ≤ data.length) :
    ∃ p h, choosePivotCmpFunc cmp data a b = some (p, h) ∧ a ≤ p ∧ p < b := by
  unfold choosePivotCmpFunc
  simp only [Nat.mul_one]
  obtain ⟨q, hq⟩ : ∃ q, (b - a) / 4 = q := ⟨_, rfl⟩
  have hq1 : 4 * q ≤ b - a := by omega
  have hq2 : b - a < 4 * q + 4 := by omega
  rw [hq]
  have key : ∃ p s, (if b - a ≥ 8 then
      (if b - a ≥ 50 then
        (medianAdjacentCmpFunc cmp data (a + q) 0).bind fun ri =>
        (medianAdjacentCmpFunc cmp data (a + q * 2) ri.2).bind fun rj =>
        (medianAdjacentCmpFunc cmp data (a + q * 3) rj.2).bind fun rk =>
        some (ri.1, rj.1, rk.1, rk.2)
      else some (a + q, a + q * 2, a + q * 3, 0)).bind fun r =>
      medianCmpFunc cmp data r.1 r.2.1 r.2.2.1 r.2.2.2
    else some (a + q * 2, 0)) = some (p, s) ∧ a ≤ p ∧ p < b := by
    split
    · split
      · obtain ⟨m1, s1, e1, h1, h1'⟩ := medianAdjacentCmpFunc_ok cmp data (a + q) 0 (by omega)
          (by omega)
        obtain ⟨m2, s2, e2, h2, h2'⟩ := medianAdjacentCmpFunc_ok cmp data (a + q * 2) s1
          (by omega) (by omega)
        obtain ⟨m3, s3, e3, h3, h3'⟩ := medianAdjacentCmpFunc_ok cmp data (a + q * 3) s2
          (by omega) (by omega)
        have b1 : a ≤ m1 ∧ m1 < b := by omega
        have b2 : a ≤ m2 ∧ m2 < b := by omega
        have b3 : a ≤ m3 ∧ m3 < b := by omega
        obtain ⟨m, s, e, h⟩ := medianCmpFunc_ok cmp data m1 m2 m3 s3 (by omega) (by omega)
          (by omega)
        simp only [e1, e2, e3, Option.some_bind, e]
        refine ⟨m, s, rfl, ?_⟩
        rcases h with h | h | h <;> rw [h] <;> assumption
      · have b1 : a ≤ a + q ∧ a + q < b := by omega
        have b2 : a ≤ a + q * 2 ∧ a + q * 2 < b := by omega
        have b3 : a ≤ a + q * 3 ∧ a + q * 3 < b := by omega
        obtain ⟨m, s, e, h⟩ := medianCmpFunc_ok cmp data (a + q) (a + q * 2) (a + q * 3) 0
          (by omega) (by omega) (by omega)
        simp only [Option.some_bind, e]
        refine ⟨m, s, rfl, ?_⟩
        rcases h with h | h | h <;> rw [h] <;> assumption
    · exact ⟨_, _, rfl, by omega, by omega⟩
  obtain ⟨p, s, e, h1, h2⟩ := key
  simp only [e, Option.some_bind]
  split
  · exact ⟨p, _, rfl, h1, h2⟩
  · split
    · exact ⟨p, _, rfl, h1, h2⟩
    · exact ⟨p, _, rfl, h1, h2⟩

theorem reverseRangeLoop_ok :
    ∀ (fuel i j : Nat) (data : List E), (i < j → j < data.length) → j ≤ fuel + i →
      Ok data (reverseRangeLoop fuel i j data)
  | 0, i, j, data, _, h => by
    unfold reverseRangeLoop
    rw [if_neg (by omega)]
    exact Ok.pure data
  | fuel + 1, i, j, data, hj, h => by
    unfold reverseRangeLoop
    split
    · rename_i hij
      have := hj hij
      exact (swap_ok (by omega) (by omega)).bind fun d' _ hl =>
        reverseRangeLoop_ok fuel (i + 1) (j - 1) d' (fun _ => by omega) (by omega)
    · exact Ok.pure data

theorem reverseRangeCmpFunc_ok (data : List E) (a b : Nat) (hb : b ≤ data.length) :
    Ok data (reverseRangeCmpFunc data a b) :=
  reverseRangeLoop_ok _ _ _ data (fun _ => by omega) (by omega)

end Slices

namespace Slices

variable {E : Type}

theorem pdqsortCmpFunc_ok (cmp : E → E → Int) :
    ∀ (fuel : Nat) (data : List E) (a b limit : Nat) (wasBalanced wasPartitioned : Bool),
      a ≤ b → b ≤ data.length → b - a < fuel →
      Ok data (pdqsortCmpFunc cmp fuel data a b limit wasBalanced wasPartitioned)
  | 0, _, _, _, _, _, _, _, _, h => by omega
  | fuel + 1, data, a, b, limit, wb, wp, hab, hb, hfuel => by
    unfold pdqsortCmpFunc
    dsimp only
    by_cases hlen : b - a ≤ 12
    · rw [if_pos hlen]
      exact insertionSortCmpFunc_ok cmp data a b hb
    rw [if_neg hlen]
    by_cases hlim : limit = 0
    · rw [if_pos hlim]
      exact heapSortCmpFunc_ok cmp data a b hab hb
    rw [if_neg hlim]
    obtain ⟨d1, l1, e1, p1⟩ : ∃ d1 l1, (if (!wb) = true then
        (breakPatternsCmpFunc data a b).map fun d => (d, limit - 1)
        else some (data, limit)) = some (d1, l1) ∧ d1.Perm data := by
      split
      · obtain ⟨d1, e, p⟩ := breakPatternsCmpFunc_ok data a b hab hb
        exact ⟨d1, _, by rw [e]; rfl, p⟩
      · exact ⟨data, _, rfl, List.Perm.refl _⟩
    have n1 := p1.length_eq
    simp only [e1, Option.some_bind]
    obtain ⟨p, h, e2, hp1, hp2⟩ := choosePivotCmpFunc_ok cmp d1 a b (by omega) (by omega)
    simp only [e2, Option.some_bind]
    obtain ⟨d2, p2, h2, e3, q2, hp3, hp4⟩ : ∃ d2 p2 h2,
        (if h = sortedHint.decreasingHint then
          (reverseRangeCmpFunc d1 a b).map fun d =>
            (d, (b - 1) - (p - a), sortedHint.increasingHint)
         else some (d1, p, h)) = some (d2, p2, h2) ∧ d2.Perm d1 ∧ a ≤ p2 ∧ p2 < b := by
      split
      · obtain ⟨d2, e, q⟩ := reverseRangeCmpFunc_ok d1 a b (by omega)
        exact ⟨d2, _, _, by rw [e]; rfl, q, by omega, by omega⟩
      · exact ⟨d1, _, _, rfl, List.Perm.refl _, hp1, hp2⟩
    have n2 := q2.length_eq
    simp only [e3, Option.some_bind]
    obtain ⟨d3, f, e4, q3⟩ : ∃ d3 f,
        (if (wb && wp && decide (h2 = sortedHint.increasingHint)) = true then
          partialInsertionSortCmpFunc cmp d2 a b
         else some (d2, false)) = some (d3, f) ∧ d3.Perm d2 := by
      split
      · exact partialInsertionSortCmpFunc_ok cmp d2 a b (by omega)
      · exact ⟨d2, _, rfl, List.Perm.refl _⟩
    have n3 := q3.length_eq
    simp only [e4, Option.some_bind]
    have p3 : d3.Perm data := q3.trans (q2.trans p1)
    by_cases hf : f = true
    · rw [if_pos hf]
      exact ⟨d3, rfl, p3⟩
    rw [if_neg hf]
    obtain ⟨c, e5⟩ : ∃ c, (if a > 0 then (less cmp d3 (a - 1) p2).map not
        else some false) = some c := by
      split
      · obtain ⟨c, hc⟩ := less_some cmp (show a - 1 < d3.length by omega)
          (show p2 < d3.length by omega)
        exact ⟨!c, by rw [hc]; rfl⟩
      · exact ⟨_, rfl⟩
    simp only [e5, Option.some_bind]
    by_cases hc : c = true
    · rw [if_pos hc]
      obtain ⟨d4, mid, e6, q4, hm1, hm2⟩ := partitionEqualCmpFunc_ok cmp d3 a b p2 hp3 hp4
        (by omega)
      have n4 := q4.length_eq
      simp only [e6, Option.some_bind]
      obtain ⟨d5, e7, q5⟩ := pdqsortCmpFunc_ok cmp fuel d4 mid b l1 wb wp hm2 (by omega)
        (by omega)
      exact ⟨d5, e7, q5.trans (q4.trans p3)⟩
    · rw [if_neg hc]
      obtain ⟨d4, mid, ap, e6, q4, hm1, hm2⟩ := partitionCmpFunc_ok cmp d3 a b p2 hp3 hp4
        (by omega)
      have n4 := q4.length_eq
      simp only [e6, Option.some_bind]
      have p4 : d4.Perm data := q4.trans p3
      by_cases hlr : mid - a < b - mid
      · rw [if_pos hlr]
        obtain ⟨d5, e7, q5⟩ := pdqsortCmpFunc_ok cmp fuel d4 a mid l1 true true hm1 (by omega)
          (by omega)
        have n5 := q5.length_eq
        obtain ⟨d6, e8, q6⟩ := pdqsortCmpFunc_ok cmp fuel d5 (mid + 1) b l1
          (decide (mid - a ≥ (b - a) / 8)) ap (by omega) (by omega) (by omega)
        simp only [e7, Option.some_bind, e8]
        exact ⟨d6, rfl, q6.trans (q5.trans p4)⟩
      · rw [if_neg hlr]
        obtain ⟨d5, e7, q5⟩ := pdqsortCmpFunc_ok cmp fuel d4 (mid + 1) b l1 true true
          (by omega) (by omega) (by omega)
        have n5 := q5.length_eq
        obtain ⟨d6, e8, q6⟩ := pdqsortCmpFunc_ok cmp fuel d5 a mid l1
          (decide (b - mid ≥ (b - a) / 8)) ap (by omega) (by omega) (by omega)
        simp only [e7, Option.some_bind, e8]
        exact ⟨d6, rfl, q6.trans (q5.trans p4)⟩

/-- `slices.SortFunc` returns for every comparison function, and what it returns is a
permutation of its argument. -/
theorem SortFunc_ok (cmp : E → E → Int) (x : List E) : Ok x (SortFunc cmp x) :=
  pdqsortCmpFunc_ok cmp _ x 0 x.length _ true true (Nat.zero_le _) (le_refl _) (by omega)

end Slices

/-! ## A comparison that never answers "less" leaves the slice alone -/

namespace Slices

variable {E : Type}

theorem less_false (cmp : E → E → Int) (hc : ∀ x y, ¬ cmp x y < 0) {data : List E} {i j : Nat}
    (hi : i < data.length) (hj : j < data.length) : less cmp data i j = some false := by
  unfold less
  rw [List.getElem?_eq_getElem hi, List.getElem?_eq_getElem hj]
  simp [hc]

theorem insertionInner_id (cmp : E → E → Int) (hc : ∀ x y, ¬ cmp x y < 0) (a : Nat) :
    ∀ (j : Nat) (data : List E), j < data.length → insertionInner cmp a j data = some data
  | 0, _, _ => rfl
  | j + 1, data, h => by
    unfold insertionInner
    split
    · rw [less_false cmp hc h (by omega)]
    · rfl

theorem insertionOuter_id (cmp : E → E → Int) (hc : ∀ x y, ¬ cmp x y < 0) (a b : Nat) :
    ∀ (fuel i : Nat) (data : List E), b ≤ data.length → b ≤ fuel + i →
      insertionOuter cmp a b fuel i data = some data
  | 0, i, data, _, h => by
    unfold insertionOuter
    rw [if_neg (by omega)]
  | fuel + 1, i, data, hb, h => by
    unfold insertionOuter
    split
    · rw [insertionInner_id cmp hc a i data (by omega)]
      exact insertionOuter_id cmp hc a b fuel (i + 1) data hb (by omega)
    · rfl

theorem order2CmpFunc_id (cmp : E → E → Int) (hc : ∀ x y, ¬ cmp x y < 0) (data : List E)
    (a b swaps : Nat) (ha : a < data.length) (hb : b < data.length) :
    order2CmpFunc cmp data a b swaps = some (a, b, swaps) := by
  unfold order2CmpFunc
  rw [less_false cmp hc hb ha]
  rfl

theorem medianCmpFunc_id (cmp : E → E → Int) (hc : ∀ x y, ¬ cmp x y < 0) (data : List E)
    (a b c swaps : Nat) (ha : a < data.length) (hb : b < data.length) (hc' : c < data.length) :
    medianCmpFunc cmp data a b c swaps = some (b, swaps) := by
  unfold medianCmpFunc
  rw [order2CmpFunc_id cmp hc data a b swaps ha hb]
  simp only [Option.some_bind]
  rw [order2CmpFunc_id cmp hc data b c swaps hb hc']
  simp only [Option.some_bind]
  rw [order2CmpFunc_id cmp hc data a b swaps ha hb]
  rfl

theorem choosePivotCmpFunc_id (cmp : E → E → Int) (hc : ∀ x y, ¬ cmp x y < 0) (data : List E)
    (a b : Nat) (hb : b ≤ data.length) (h8 : 8 ≤ b - a) :
    ∃ p, choosePivotCmpFunc cmp data a b = some (p, sortedHint.increasingHint) := by
  unfold choosePivotCmpFunc
  simp only [Nat.mul_one]
  obtain ⟨q, hq⟩ : ∃ q, (b - a) / 4 = q := ⟨_, rfl⟩
  have hq1 : 4 * q ≤ b - a := by omega
  have hq2 : b - a < 4 * q + 4 := by omega
  rw [hq, if_pos h8]
  by_cases h50 : b - a ≥ 50
  · rw [if_pos h50]
    simp only [medianAdjacentCmpFunc]
    rw [medianCmpFunc_id cmp hc data _ _ _ _ (by omega) (by omega) (by omega)]
    simp only [Option.some_bind]
    rw [medianCmpFunc_id cmp hc data _ _ _ _ (by omega) (by omega) (by omega)]
    simp only [Option.some_bind]
    rw [medianCmpFunc_id cmp hc data _ _ _ _ (by omega) (by omega) (by omega)]
    simp only [Option.some_bind]
    rw [medianCmpFunc_id cmp hc data _ _ _ _ (by omega) (by omega) (by omega)]
    exact ⟨_, rfl⟩
  · rw [if_neg h50]
    simp only [Option.some_bind]
    rw [medianCmpFunc_id cmp hc data _ _ _ _ (by omega) (by omega) (by omega)]
    exact ⟨_, rfl⟩

theorem scanSorted_id (cmp : E → E → Int) (hc : ∀ x y, ¬ cmp x y < 0) (data : List E) (b : Nat)
    (hb : b ≤ data.length) :
    ∀ (fuel i : Nat), 1 ≤ i → i ≤ b → b ≤ fuel + i → scanSorted cmp data b fuel i = some b
  | 0, i, _, h1, h => by
    unfold scanSorted
    rw [if_neg (by omega)]
    congr 1
    omega
  | fuel + 1, i, hi, h1, h => by
    unfold scanSorted
    split
    · rw [less_false cmp hc (show i < data.length by omega) (show i - 1 < data.length by omega)]
      exact scanSorted_id cmp hc data b hb fuel (i + 1) (by omega) (by omega) (by omega)
    · congr 1
      omega

theorem partialInsertionSortCmpFunc_id (cmp : E → E → Int) (hc : ∀ x y, ¬ cmp x y < 0)
    (data : List E) (a b : Nat) (hab : a < b) (hb : b ≤ data.length) :
    partialInsertionSortCmpFunc cmp data a b = some (data, true) := by
  unfold partialInsertionSortCmpFunc partialInsertionLoop
  rw [scanSorted_id cmp hc data b hb _ _ (by omega) (by omega) (by omega)]
  simp

theorem bitsLen_ne_zero (n : Nat) (h : 1 ≤ n) : bitsLen n ≠ 0 := by
  unfold bitsLen bitsLenAux
  rw [if_neg (by omega)]
  omega

/-- With a comparison that never answers "less", `slices.SortFunc` returns its argument. -/
theorem SortFunc_id (cmp : E → E → Int) (hc : ∀ x y, ¬ cmp x y < 0) (x : List E) :
    SortFunc cmp x = some x := by
  unfold SortFunc
  dsimp only
  unfold pdqsortCmpFunc
  dsimp only
  by_cases hlen : x.length - 0 ≤ 12
  · rw [if_pos hlen]
    exact insertionOuter_id cmp hc 0 x.length _ _ x (le_refl _) (by omega)
  · rw [if_neg hlen, if_neg (bitsLen_ne_zero _ (by omega))]
    obtain ⟨p, hp⟩ := choosePivotCmpFunc_id cmp hc x 0 x.length (le_refl _) (by omega)
    simp only [Bool.not_true, Bool.false_eq_true, if_false, Option.some_bind, hp]
    rw [if_neg (by decide)]
    simp only [Option.some_bind, Bool.and_self, decide_True, if_true]
    rw [partialInsertionSortCmpFunc_id cmp hc x 0 x.length (by omega) (le_refl _)]
    simp

end Slices

/-! ## Insertion sort keeps the order of entries that do not compare "less" -/

namespace Slices

variable {E : Type}

theorem before_unique {orig : List E} (hn : orig.Nodup) {u v : E} (h1 : Before orig u v)
    (h2 : Before orig v u) : False := by
  obtain ⟨p, q, hpq, hp, hq⟩ := h1
  obtain ⟨p', q', hpq', hp', hq'⟩ := h2
  obtain ⟨lp, ep⟩ := List.getElem?_eq_some.mp hp
  obtain ⟨lq, eq⟩ := List.getElem?_eq_some.mp hq
  obtain ⟨lp', ep'⟩ := List.getElem?_eq_some.mp hp'
  obtain ⟨lq', eq'⟩ := List.getElem?_eq_some.mp hq'
  have e1 : p = q' := (hn.getElem_inj_iff).mp (ep.trans eq'.symm)
  have e2 : q = p' := (hn.getElem_inj_iff).mp (eq.trans ep'.symm)
  omega

theorem justified_self (cmp : E → E → Int) {orig : List E} (hn : orig.Nodup) :
    Justified cmp orig orig :=
  fun _ _ h1 h2 => (before_unique hn h1 h2).elim

theorem justified_swap (cmp : E → E → Int) {orig d d' : List E} {j : Nat}
    (hJ : Justified cmp orig d) (hl : less cmp d (j + 1) j = some true)
    (hs : swap d (j + 1) j = some d') : Justified cmp orig d' := by
  have s := (swap_inv hs).2.2.2.2
  intro u v ⟨p, q, hpq, hp, hq⟩ ho
  rw [s] at hp hq
  by_cases c : p = j ∧ q = j + 1
  · obtain ⟨rfl, rfl⟩ := c
    simp only [if_true, show ¬ (p + 1 = p) by omega, if_false] at hp hq
    unfold less at hl
    rw [hp, hq] at hl
    simpa using hl
  · refine hJ u v ?_ ho
    by_cases p1 : p = j
    · subst p1
      rw [if_pos rfl] at hp
      rw [if_neg (by omega), if_neg (by omega)] at hq
      exact ⟨p + 1, q, by omega, hp, hq⟩
    · rw [if_neg p1] at hp
      by_cases p2 : p = j + 1
      · subst p2
        rw [if_pos rfl] at hp
        rw [if_neg (by omega), if_neg (by omega)] at hq
        exact ⟨j, q, by omega, hp, hq⟩
      · rw [if_neg p2] at hp
        by_cases q1 : q = j
        · subst q1
          rw [if_pos rfl] at hq
          exact ⟨p, q + 1, by omega, hp, hq⟩
        · rw [if_neg q1] at hq
          by_cases q2 : q = j + 1
          · subst q2
            rw [if_pos rfl] at hq
            exact ⟨p, j, by omega, hp, hq⟩
          · rw [if_neg q2] at hq
            exact ⟨p, q, hpq, hp, hq⟩

theorem insertionInner_justified (cmp : E → E → Int) (orig : List E) (a : Nat) :
    ∀ (j : Nat) (d d' : List E), insertionInner cmp a j d = some d' → Justified cmp orig d →
      Justified cmp orig d'
  | 0, d, d', h, hJ => by
    simp only [insertionInner, Option.some.injEq] at h
    exact h ▸ hJ
  | j + 1, d, d', h, hJ => by
    unfold insertionInner at h
    split at h
    · cases hl : less cmp d (j + 1) j with
      | none => simp [hl] at h
      | some c =>
        cases c
        · simp only [hl, Option.some.injEq] at h
          exact h ▸ hJ
        · simp only [hl] at h
          cases hs : swap d (j + 1) j with
          | none => simp [hs] at h
          | some d1 =>
            simp only [hs, Option.some_bind] at h
            exact insertionInner_justified cmp orig a j d1 d' h (justified_swap cmp hJ hl hs)
    · simp only [Option.some.injEq] at h
      exact h ▸ hJ

theorem insertionOuter_justified (cmp : E → E → Int) (orig : List E) (a b : Nat) :
    ∀ (fuel i : Nat) (d d' : List E), insertionOuter cmp a b fuel i d = some d' →
      Justified cmp orig d → Justified cmp orig d'
  | 0, i, d, d', h, hJ => by
    unfold insertionOuter at h
    split at h
    · simp at h
    · simp only [Option.some.injEq] at h
      exact h ▸ hJ
  | fuel + 1, i, d, d', h, hJ => by
    unfold insertionOuter at h
    split at h
    · cases hs : insertionInner cmp a i d with
      | none => simp [hs] at h
      | some d1 =>
        simp only [hs, Option.some_bind] at h
        exact insertionOuter_justified cmp orig a b fuel (i + 1) d1 d' h
          (insertionInner_justified cmp orig a i d d1 hs hJ)
    · simp only [Option.some.injEq] at h
      exact h ▸ hJ

theorem SortFunc_small (cmp : E → E → Int) (x : List E) (h : x.length ≤ 12) :
    SortFunc cmp x = insertionSortCmpFunc cmp x 0 x.length := by
  unfold SortFunc
  dsimp only
  unfold pdqsortCmpFunc
  dsimp only
  rw [if_pos (by omega)]

/-- On a slice of at most 12 distinct entries `slices.SortFunc` is stable: an entry `u`
ends up ahead of an entry `v` that stood before it only if `cmp u v < 0`. -/
theorem SortFunc_small_justified (cmp : E → E → Int) (x out : List E) (h : x.length ≤ 12)
    (hn : x.Nodup) (hs : SortFunc cmp x = some out) : Justified cmp x out := by
  rw [SortFunc_small cmp x h] at hs
  exact insertionOuter_justified cmp x 0 x.length _ _ x out hs (justified_self cmp hn)

end Slices

/-! ## The sort puts the keys in ascending order

From here on the comparison is assumed to order by a key: `cmp x y < 0` exactly when
`key x < key y`. -/

namespace Slices

variable {E : Type}

theorem Within.refl (d : List E) (a b : Nat) : Within d d a b :=
  ⟨rfl, fun _ _ => rfl, fun k h1 h2 => ⟨k, h1, h2, rfl⟩⟩

theorem Within.trans {d d1 d2 : List E} {a b : Nat} (h1 : Within d d1 a b)
    (h2 : Within d1 d2 a b) : Within d d2 a b := by
  refine ⟨h2.1.trans h1.1, fun k hk => (h2.2.1 k hk).trans (h1.2.1 k hk), fun k ha hb => ?_⟩
  obtain ⟨k1, ha1, hb1, e1⟩ := h2.2.2 k ha hb
  obtain ⟨k2, ha2, hb2, e2⟩ := h1.2.2 k1 ha1 hb1
  exact ⟨k2, ha2, hb2, e1.trans e2⟩

theorem Within.widen {d d' : List E} {a b a' b' : Nat} (h : Within d d' a' b') (ha : a ≤ a')
    (hb : b' ≤ b) : Within d d' a b := by
  refine ⟨h.1, fun k hk => h.2.1 k (by omega), fun k h1 h2 => ?_⟩
  by_cases hk : a' ≤ k ∧ k < b'
  · obtain ⟨k', h1', h2', e⟩ := h.2.2 k hk.1 hk.2
    exact ⟨k', by omega, by omega, e⟩
  · exact ⟨k, h1, h2, h.2.1 k (by omega)⟩

theorem within_swap {d d' : List E} {i j a b : Nat} (h : swap d i j = some d') (hi1 : a ≤ i)
    (hi2 : i < b) (hj1 : a ≤ j) (hj2 : j < b) : Within d d' a b := by
  obtain ⟨_, _, hl, _, hk⟩ := swap_inv h
  refine ⟨hl, fun k hk' => ?_, fun k h1 h2 => ?_⟩
  · rw [hk, if_neg (by omega), if_neg (by omega)]
  · rw [hk]
    by_cases c1 : k = j
    · exact ⟨i, hi1, hi2, by rw [if_pos c1]⟩
    · by_cases c2 : k = i
      · exact ⟨j, hj1, hj2, by rw [if_neg c1, if_pos c2]⟩
      · exact ⟨k, h1, h2, by rw [if_neg c1, if_neg c2]⟩

theorem keyAt_congr (key : E → Int) {d d' : List E} {k k' : Nat} (h : d'[k]? = d[k']?) :
    keyAt key d' k = keyAt key d k' := by
  unfold keyAt
  rw [h]

theorem Within.key_out (key : E → Int) {d d' : List E} {a b : Nat} (h : Within d d' a b)
    (k : Nat) (hk : k < a ∨ b ≤ k) : keyAt key d' k = keyAt key d k :=
  keyAt_congr key (h.2.1 k hk)

theorem Within.key_in (key : E → Int) {d d' : List E} {a b : Nat} (h : Within d d' a b)
    (P : Int → Prop) (hP : ∀ k, a ≤ k → k < b → P (keyAt key d k)) :
    ∀ k, a ≤ k → k < b → P (keyAt key d' k) := by
  intro k h1 h2
  obtain ⟨k', h1', h2', e⟩ := h.2.2 k h1 h2
  rw [keyAt_congr key e]
  exact hP k' h1' h2'

theorem keyAt_swap (key : E → Int) {d d' : List E} {i j : Nat} (h : swap d i j = some d')
    (k : Nat) : keyAt key d' k =
      if k = j then keyAt key d i else if k = i then keyAt key d j else keyAt key d k := by
  have hk := (swap_inv h).2.2.2.2 k
  split
  · rw [if_pos (by assumption)] at hk
    exact keyAt_congr key hk
  · rw [if_neg (by assumption)] at hk
    split
    · rw [if_pos (by assumption)] at hk
      exact keyAt_congr key hk
    · rw [if_neg (by assumption)] at hk
      exact keyAt_congr key hk

theorem less_iff (cmp : E → E → Int) (key : E → Int)
    (hkey : ∀ x y, cmp x y < 0 ↔ key x < key y) {d : List E} {i j : Nat} {c : Bool}
    (h : less cmp d i j = some c) : c = true ↔ keyAt key d i < keyAt key d j := by
  unfold less at h
  unfold keyAt
  cases hx : d[i]? with
  | none => simp [hx] at h
  | some x =>
    cases hy : d[j]? with
    | none => simp [hx, hy] at h
    | some y =>
      simp only [hx, hy, Option.some.injEq] at h
      subst h
      simp [hkey]

theorem SortedOn.narrow (key : E → Int) {d : List E} {a b a' b' : Nat} (h : SortedOn key d a b)
    (ha : a ≤ a') (hb : b' ≤ b) : SortedOn key d a' b' :=
  fun p q h1 h2 h3 => h p q (by omega) h2 (by omega)

theorem SortedOn.outside (key : E → Int) {d d' : List E} {a b a' b' : Nat}
    (h : SortedOn key d a b) (hw : Within d d' a' b') (hd : b ≤ a' ∨ b' ≤ a) :
    SortedOn key d' a b := by
  intro p q h1 h2 h3
  rw [hw.key_out key p (by omega), hw.key_out key q (by omega)]
  exact h p q h1 h2 h3

/-! ### Insertion sort -/

theorem insertionInner_sorted (cmp : E → E → Int) (key : E → Int)
    (hkey : ∀ x y, cmp x y < 0 ↔ key x < key y) (a i : Nat) :
    ∀ (j : Nat) (d d' : List E), insertionInner cmp a j d = some d' → a ≤ j → j ≤ i →
      Hole key d a i j → Within d d' a (i + 1) ∧ SortedOn key d' a (i + 1)
  | 0, d, d', h, ha, hi, hH => by
    simp only [insertionInner, Option.some.injEq] at h
    subst h
    refine ⟨Within.refl _ _ _, fun p q h1 h2 h3 => ?_⟩
    by_cases hp : p = 0
    · subst hp
      exact hH.2 q h2 (by omega)
    · exact hH.1 p q h1 h2 (by omega) hp (by omega)
  | j + 1, d, d', h, ha, hi, hH => by
    unfold insertionInner at h
    have stop : ∀ c, less cmp d (j + 1) j = some c → c = false → a ≤ j →
        SortedOn key d a (i + 1) := by
      intro c hc hf haj p q h1 h2 h3
      have hl := less_iff cmp key hkey hc
      rw [hf] at hl
      have hle : keyAt key d j ≤ keyAt key d (j + 1) := by
        by_contra hcon
        exact absurd (hl.mpr (by omega)) (by simp)
      by_cases hp : p = j + 1
      · subst hp
        exact hH.2 q h2 (by omega)
      · by_cases hq : q = j + 1
        · subst hq
          by_cases hp' : p = j
          · subst hp'
            exact hle
          · have := hH.1 p j h1 (by omega) (by omega) hp (by omega)
            omega
        · exact hH.1 p q h1 h2 (by omega) hp hq
    split at h
    · rename_i hgt
      cases hl : less cmp d (j + 1) j with
      | none => simp [hl] at h
      | some c =>
        cases c
        · simp only [hl, Option.some.injEq] at h
          subst h
          exact ⟨Within.refl _ _ _, stop false hl rfl (by omega)⟩
        · simp only [hl] at h
          cases hs : swap d (j + 1) j with
          | none => simp [hs] at h
          | some d1 =>
            simp only [hs, Option.some_bind] at h
            have hlt := (less_iff cmp key hkey hl).mp rfl
            have ks := keyAt_swap key hs
            have hH1 : Hole key d1 a i j := by
              refine ⟨fun p q h1 h2 h3 hp hq => ?_, fun q h1 h2 => ?_⟩
              · rw [ks p, ks q, if_neg hp, if_neg hq]
                by_cases hp' : p = j + 1
                · rw [if_pos hp']
                  subst hp'
                  rw [if_neg (by omega)]
                  exact hH.1 j q (by omega) (by omega) h3 (by omega) (by omega)
                · rw [if_neg hp']
                  by_cases hq' : q = j + 1
                  · rw [if_pos hq']
                    subst hq'
                    exact hH.1 p j h1 (by omega) (by omega) hp' (by omega)
                  · rw [if_neg hq']
                    exact hH.1 p q h1 h2 h3 hp' hq'
              · rw [ks j, ks q, if_pos rfl, if_neg (by omega)]
                by_cases hq' : q = j + 1
                · rw [if_pos hq']
                  omega
                · rw [if_neg hq']
                  exact hH.2 q (by omega) h2
            obtain ⟨w, s⟩ := insertionInner_sorted cmp key hkey a i j d1 d' h (by omega)
              (by omega) hH1
            exact ⟨(within_swap hs (by omega) (by omega) (by omega) (by omega)).trans w, s⟩
    · rename_i hgt
      simp only [Option.some.injEq] at h
      subst h
      refine ⟨Within.refl _ _ _, fun p q h1 h2 h3 => ?_⟩
      have haj : a = j + 1 := by omega
      by_cases hp : p = j + 1
      · subst hp
        exact hH.2 q h2 (by omega)
      · exact hH.1 p q h1 h2 (by omega) hp (by omega)

theorem insertionOuter_sorted (cmp : E → E → Int) (key : E → Int)
    (hkey : ∀ x y, cmp x y < 0 ↔ key x < key y) (a b : Nat) :
    ∀ (fuel i : Nat) (d d' : List E), insertionOuter cmp a b fuel i d = some d' → a < i →
      SortedOn key d a i → Within d d' a b ∧ SortedOn key d' a b
  | 0, i, d, d', h, hi, hs => by
    unfold insertionOuter at h
    split at h
    · simp at h
    · simp only [Option.some.injEq] at h
      subst h
      exact ⟨Within.refl _ _ _, hs.narrow key (le_refl _) (by omega)⟩
  | fuel + 1, i, d, d', h, hi, hs => by
    unfold insertionOuter at h
    split at h
    · cases h1 : insertionInner cmp a i d with
      | none => simp [h1] at h
      | some d1 =>
        simp only [h1, Option.some_bind] at h
        obtain ⟨w1, s1⟩ := insertionInner_sorted cmp key hkey a i i d d1 h1 (by omega)
          (le_refl _) ⟨fun p q hp hpq hq _ hqi => hs p q hp hpq (by omega),
            fun q hq1 hq2 => by omega⟩
        obtain ⟨w2, s2⟩ := insertionOuter_sorted cmp key hkey a b fuel (i + 1) d1 d' h
          (by omega) s1
        exact ⟨(w1.widen (le_refl _) (by omega)).trans w2, s2⟩
    · simp only [Option.some.injEq] at h
      subst h
      exact ⟨Within.refl _ _ _, hs.narrow key (le_refl _) (by omega)⟩

theorem insertionSortCmpFunc_sorted (cmp : E → E → Int) (key : E → Int)
    (hkey : ∀ x y, cmp x y < 0 ↔ key x < key y) {d d' : List E} {a b : Nat}
    (h : insertionSortCmpFunc cmp d a b = some d') :
    Within d d' a b ∧ SortedOn key d' a b :=
  insertionOuter_sorted cmp key hkey a b _ _ d d' h (by omega)
    (fun p q h1 h2 h3 => by omega)

end Slices

/-! ### Partitions -/

namespace Slices

variable {E : Type}

theorem scanUp_spec (test : Nat → Option Bool) (j : Nat) :
    ∀ (fuel i i' : Nat), scanUp test j fuel i = some i' →
      i ≤ i' ∧ (i' ≤ j + 1 ∨ i' = i) ∧ (∀ k, i ≤ k → k < i' → test k = some true) ∧
      (i' ≤ j → test i' = some false)
  | 0, i, i', h => by
    unfold scanUp at h
    split at h
    · simp at h
    · simp only [Option.some.injEq] at h
      subst h
      exact ⟨le_refl _, Or.inr rfl, fun k h1 h2 => by omega, fun h => by omega⟩
  | fuel + 1, i, i', h => by
    unfold scanUp at h
    split at h
    · cases ht : test i with
      | none => simp [ht] at h
      | some c =>
        cases c
        · simp only [ht, Option.some.injEq] at h
          subst h
          exact ⟨le_refl _, Or.inr rfl, fun k h1 h2 => by omega, fun _ => ht⟩
        · simp only [ht] at h
          obtain ⟨h1, h2, h3, h4⟩ := scanUp_spec test j fuel (i + 1) i' h
          refine ⟨by omega, by omega, fun k hk1 hk2 => ?_, h4⟩
          by_cases hk : k = i
          · rw [hk]
            exact ht
          · exact h3 k (by omega) hk2
    · simp only [Option.some.injEq] at h
      subst h
      exact ⟨le_refl _, Or.inr rfl, fun k h1 h2 => by omega, fun h => by omega⟩

theorem scanDown_spec (test : Nat → Option Bool) (i : Nat) :
    ∀ (fuel j j' : Nat), scanDown test i fuel j = some j' →
      j' ≤ j ∧ (i ≤ j' + 1 ∨ j' = j) ∧ (∀ k, j' < k → k ≤ j → test k = some true) ∧
      (i ≤ j' → test j' = some false)
  | 0, j, j', h => by
    unfold scanDown at h
    split at h
    · simp at h
    · simp only [Option.some.injEq] at h
      subst h
      exact ⟨le_refl _, Or.inr rfl, fun k h1 h2 => by omega, fun h => by omega⟩
  | fuel + 1, j, j', h => by
    unfold scanDown at h
    split at h
    · cases ht : test j with
      | none => simp [ht] at h
      | some c =>
        cases c
        · simp only [ht, Option.some.injEq] at h
          subst h
          exact ⟨le_refl _, Or.inr rfl, fun k h1 h2 => by omega, fun _ => ht⟩
        · simp only [ht] at h
          obtain ⟨h1, h2, h3, h4⟩ := scanDown_spec test i fuel (j - 1) j' h
          refine ⟨by omega, by omega, fun k hk1 hk2 => ?_, h4⟩
          by_cases hk : k = j
          · rw [hk]
            exact ht
          · exact h3 k hk1 (by omega)
    · simp only [Option.some.injEq] at h
      subst h
      exact ⟨le_refl _, Or.inr rfl, fun k h1 h2 => by omega, fun h => by omega⟩

/-- The loop of a partition around the key `P` of the entry at `a`, where the scan up passes
the entries whose key satisfies `U` and the scan down those whose key does not: it
rearranges `d[a+1..b)`, and on return every entry before `i'` satisfies `U` and no entry
after `j'` does. -/
theorem partitionLoop_spec (key : E → Int)
    (up down : List E → Nat → Option Bool) (a b : Nat) (P : Int) (U : Int → Prop)
    (hup : ∀ (d : List E) k c, keyAt key d a = P → up d k = some c →
      (c = true ↔ U (keyAt key d k)))
    (hdown : ∀ (d : List E) k c, keyAt key d a = P → down d k = some c →
      (c = true ↔ ¬ U (keyAt key d k))) :
    ∀ (fuel i j : Nat) (d d' : List E) (i' j' : Nat),
      partitionLoop up down fuel i j d = some (d', i', j') → a < i → j < b →
      keyAt key d a = P → (∀ k, a < k → k < i → U (keyAt key d k)) →
      (∀ k, j < k → k < b → ¬ U (keyAt key d k)) →
      Within d d' (a + 1) b ∧ keyAt key d' a = P ∧ j' < i' ∧ i ≤ i' ∧ j' ≤ j ∧
      (i' ≤ j + 1 ∨ i' = i) ∧ (i ≤ j' + 1 ∨ j' = j) ∧
      (∀ k, a < k → k < i' → U (keyAt key d' k)) ∧
      (∀ k, j' < k → k < b → ¬ U (keyAt key d' k))
  | 0, _, _, _, _, _, _, h, _, _, _, _, _ => by simp [partitionLoop] at h
  | fuel + 1, i, j, d, d', i', j', h, hi, hj, hP, hU, hV => by
    unfold partitionLoop at h
    cases h1 : scanUp (up d) j (j + 1 - i) i with
    | none => simp [h1] at h
    | some i1 =>
      simp only [h1, Option.some_bind] at h
      cases h2 : scanDown (down d) i1 (j + 1 - i1) j with
      | none => simp [h2] at h
      | some j1 =>
        simp only [h2, Option.some_bind] at h
        obtain ⟨u1, u2, u3, u4⟩ := scanUp_spec (up d) j _ i i1 h1
        obtain ⟨v1, v2, v3, v4⟩ := scanDown_spec (down d) i1 _ j j1 h2
        have hU1 : ∀ k, a < k → k < i1 → U (keyAt key d k) := fun k hk1 hk2 => by
          by_cases hk : k < i
          · exact hU k hk1 hk
          · exact (hup d k true hP (u3 k (by omega) hk2)).mp rfl
        have hV1 : ∀ k, j1 < k → k < b → ¬ U (keyAt key d k) := fun k hk1 hk2 => by
          by_cases hk : j < k
          · exact hV k hk hk2
          · exact (hdown d k true hP (v3 k hk1 (by omega))).mp rfl
        split at h
        · rename_i hgt
          simp only [Option.some.injEq, Prod.mk.injEq] at h
          obtain ⟨rfl, rfl, rfl⟩ := h
          exact ⟨Within.refl _ _ _, hP, hgt, u1, v1, u2, by omega, hU1, hV1⟩
        · rename_i hgt
          cases hs : swap d i1 j1 with
          | none => simp [hs] at h
          | some d1 =>
            simp only [hs, Option.some_bind] at h
            have ks := keyAt_swap key hs
            have hP1 : keyAt key d1 a = P := by
              rw [ks a, if_neg (by omega), if_neg (by omega)]
              exact hP
            have nU : ¬ U (keyAt key d i1) := fun hc =>
              absurd ((hup d i1 false hP (u4 (by omega))).mpr hc) (by simp)
            have yU : U (keyAt key d j1) := by
              by_contra hc
              exact absurd ((hdown d j1 false hP (v4 (by omega))).mpr hc) (by simp)
            have hne : i1 ≠ j1 := fun e => nU (e ▸ yU)
            have hU2 : ∀ k, a < k → k < i1 + 1 → U (keyAt key d1 k) := fun k hk1 hk2 => by
              rw [ks k, if_neg (by omega)]
              by_cases hk : k = i1
              · rw [if_pos hk]
                exact yU
              · rw [if_neg hk]
                exact hU1 k hk1 (by omega)
            have hV2 : ∀ k, j1 - 1 < k → k < b → ¬ U (keyAt key d1 k) := fun k hk1 hk2 => by
              rw [ks k]
              by_cases hk : k = j1
              · rw [if_pos hk]
                exact nU
              · rw [if_neg hk, if_neg (by omega)]
                exact hV1 k (by omega) hk2
            obtain ⟨w, r1, r2, r3, r4, r5, r6, r7, r8⟩ := partitionLoop_spec key up down
              a b P U hup hdown fuel (i1 + 1) (j1 - 1) d1 d' i' j' h (by omega) (by omega)
              hP1 hU2 hV2
            exact ⟨(within_swap hs (by omega) (by omega) (by omega) (by omega)).trans w, r1,
              r2, by omega, by omega, by omega, by omega, r7, r8⟩

theorem partitionCmpFunc_sorted (cmp : E → E → Int) (key : E → Int)
    (hkey : ∀ x y, cmp x y < 0 ↔ key x < key y) {d d' : List E} {a b pivot mid : Nat}
    {ap : Bool} (h : partitionCmpFunc cmp d a b pivot = some (d', mid, ap)) (hap : a ≤ pivot)
    (hpb : pivot < b) :
    Within d d' a b ∧ a ≤ mid ∧ mid < b ∧
    (∀ k, a ≤ k → k < mid → keyAt key d' k < keyAt key d' mid) ∧
    (∀ k, mid < k → k < b → keyAt key d' mid ≤ keyAt key d' k) := by
  unfold partitionCmpFunc at h
  dsimp only at h
  cases h0 : swap d a pivot with
  | none => simp [h0] at h
  | some d0 =>
    simp only [h0, Option.some_bind] at h
    have w0 : Within d d0 a b := within_swap h0 (le_refl _) (by omega) hap hpb
    have hup : ∀ (x : List E) k c, keyAt key x a = keyAt key d0 a → less cmp x k a = some c →
        (c = true ↔ keyAt key x k < keyAt key d0 a) := fun x k c hx hc => by
      rw [← hx]
      exact less_iff cmp key hkey hc
    have hdown : ∀ (x : List E) k c, keyAt key x a = keyAt key d0 a →
        (less cmp x k a).map not = some c → (c = true ↔ ¬ keyAt key x k < keyAt key d0 a) :=
      fun x k c hx hc => by
        cases hl : less cmp x k a with
        | none => simp [hl] at hc
        | some c' =>
          simp only [hl, Option.map_some', Option.some.injEq] at hc
          subst hc
          rw [← hup x k c' hx hl]
          simp
    cases h1 : scanUp (fun k => less cmp d0 k a) (b - 1) (b - 1 + 1 - (a + 1)) (a + 1) with
    | none =>
      rw [h1] at h
      simp at h
    | some i1 =>
      simp only [h1, Option.some_bind] at h
      cases h2 : scanDown (fun k => (less cmp d0 k a).map not) i1 (b - 1 + 1 - i1) (b - 1) with
      | none => simp [h2] at h
      | some j1 =>
        simp only [h2, Option.some_bind] at h
        obtain ⟨u1, u2, u3, u4⟩ := scanUp_spec _ _ _ _ _ h1
        obtain ⟨v1, v2, v3, v4⟩ := scanDown_spec _ _ _ _ _ h2
        have hU1 : ∀ k, a < k → k < i1 → keyAt key d0 k < keyAt key d0 a := fun k hk1 hk2 =>
          (hup d0 k true rfl (u3 k (by omega) hk2)).mp rfl
        have hV1 : ∀ k, j1 < k → k < b → ¬ keyAt key d0 k < keyAt key d0 a := fun k hk1 hk2 =>
          (hdown d0 k true rfl (v3 k hk1 (by omega))).mp rfl
        have fin : ∀ (x x' : List E) (i j : Nat), Within d0 x (a + 1) b →
            keyAt key x a = keyAt key d0 a → j < i → a ≤ j → j < b →
            (∀ k, a < k → k < i → keyAt key x k < keyAt key d0 a) →
            (∀ k, j < k → k < b → ¬ keyAt key x k < keyAt key d0 a) →
            swap x j a = some x' →
            Within d x' a b ∧ a ≤ j ∧ j < b ∧
            (∀ k, a ≤ k → k < j → keyAt key x' k < keyAt key x' j) ∧
            (∀ k, j < k → k < b → keyAt key x' j ≤ keyAt key x' k) := by
          intro x x' i j wx hPx hji haj hjb hU hV hs
          have ks := keyAt_swap key hs
          have kj : keyAt key x' j = keyAt key d0 a := by
            rw [ks j]
            by_cases hj : j = a
            · rw [if_pos hj, hj]
              exact hPx
            · rw [if_neg hj, if_pos rfl]
              exact hPx
          refine ⟨w0.trans ((wx.widen (by omega) (le_refl _)).trans
            (within_swap hs haj hjb (le_refl _) (by omega))), haj, hjb, fun k hk1 hk2 => ?_,
            fun k hk1 hk2 => ?_⟩
          · rw [kj, ks k]
            by_cases hk : k = a
            · rw [if_pos hk]
              exact hU j (by omega) hji
            · rw [if_neg hk, if_neg (by omega)]
              exact hU k (by omega) (by omega)
          · rw [kj, ks k, if_neg (by omega), if_neg (by omega)]
            have := hV k hk1 hk2
            omega
        split at h
        · rename_i hgt
          cases hs : swap d0 j1 a with
          | none => simp [hs] at h
          | some d1 =>
            simp only [hs, Option.some_bind, Option.some.injEq, Prod.mk.injEq] at h
            obtain ⟨rfl, rfl, _⟩ := h
            exact fin d0 d1 i1 j1 (Within.refl _ _ _) rfl hgt (by omega) (by omega) hU1 hV1 hs
        · rename_i hgt
          cases hs : swap d0 i1 j1 with
          | none => simp [hs] at h
          | some d1 =>
            simp only [hs, Option.some_bind] at h
            cases hl : partitionLoop (fun (d : List E) k => less cmp d k a)
                (fun (d : List E) k => (less cmp d k a).map not) (b - a) (i1 + 1) (j1 - 1)
                d1 with
            | none => simp [hl] at h
            | some r =>
              obtain ⟨d2, i2, j2⟩ := r
              simp only [hl, Option.some_bind] at h
              cases hs2 : swap d2 j2 a with
              | none => simp [hs2] at h
              | some d3 =>
                simp only [hs2, Option.some_bind, Option.some.injEq, Prod.mk.injEq] at h
                obtain ⟨rfl, rfl, _⟩ := h
                have ks := keyAt_swap key hs
                have hP1 : keyAt key d1 a = keyAt key d0 a := by
                  rw [ks a, if_neg (by omega), if_neg (by omega)]
                have nU : ¬ keyAt key d0 i1 < keyAt key d0 a :=
                  fun hc => absurd ((hup d0 i1 false rfl (u4 (by omega))).mpr hc) (by simp)
                have yU : keyAt key d0 j1 < keyAt key d0 a := by
                  by_contra hc
                  exact absurd ((hdown d0 j1 false rfl (v4 (by omega))).mpr hc) (by simp)
                have hne : i1 ≠ j1 := fun e => nU (e ▸ yU)
                have hU2 : ∀ k, a < k → k < i1 + 1 → keyAt key d1 k < keyAt key d0 a :=
                  fun k hk1 hk2 => by
                    rw [ks k, if_neg (by omega)]
                    by_cases hk : k = i1
                    · rw [if_pos hk]
                      exact yU
                    · rw [if_neg hk]
                      exact hU1 k hk1 (by omega)
                have hV2 : ∀ k, j1 - 1 < k → k < b → ¬ keyAt key d1 k < keyAt key d0 a :=
                  fun k hk1 hk2 => by
                    rw [ks k]
                    by_cases hk : k = j1
                    · rw [if_pos hk]
                      exact nU
                    · rw [if_neg hk, if_neg (by omega)]
                      exact hV1 k (by omega) hk2
                obtain ⟨w, r1, r2, r3, r4, r5, r6, r7, r8⟩ := partitionLoop_spec key _ _
                  a b (keyAt key d0 a) (fun v => v < keyAt key d0 a) hup hdown _ _ _ d1 d2 i2
                  j2 hl (by omega) (by omega) hP1 hU2 hV2
                have w1 : Within d0 d1 (a + 1) b :=
                  within_swap hs (by omega) (by omega) (by omega) (by omega)
                exact fin d2 d3 i2 j2 (w1.trans w) r1 r2 (by omega) (by omega) r7 r8 hs2

theorem partitionEqualCmpFunc_sorted (cmp : E → E → Int) (key : E → Int)
    (hkey : ∀ x y, cmp x y < 0 ↔ key x < key y) {d d' : List E} {a b pivot mid : Nat}
    (h : partitionEqualCmpFunc cmp d a b pivot = some (d', mid)) (hap : a ≤ pivot)
    (hpb : pivot < b) :
    Within d d' a b ∧ a < mid ∧ (mid ≤ b) ∧
    (∀ k, a ≤ k → k < mid → keyAt key d' k ≤ keyAt key d pivot) ∧
    (∀ k, mid ≤ k → k < b → keyAt key d pivot < keyAt key d' k) := by
  unfold partitionEqualCmpFunc at h
  dsimp only at h
  cases h0 : swap d a pivot with
  | none => simp [h0] at h
  | some d0 =>
    simp only [h0, Option.some_bind] at h
    have w0 : Within d d0 a b := within_swap h0 (le_refl _) (by omega) hap hpb
    have hP0 : keyAt key d0 a = keyAt key d pivot := by
      rw [keyAt_swap key h0 a]
      by_cases hc : a = pivot
      · rw [if_pos hc, hc]
      · rw [if_neg hc, if_pos rfl]
    cases hl : partitionLoop (fun (d : List E) k => (less cmp d a k).map not)
        (fun (d : List E) k => less cmp d a k) (b - a + 1) (a + 1) (b - 1) d0 with
    | none => simp [hl] at h
    | some r =>
      obtain ⟨d2, i2, j2⟩ := r
      simp only [hl, Option.some_bind, Option.some.injEq, Prod.mk.injEq] at h
      obtain ⟨rfl, rfl⟩ := h
      have hdown : ∀ (x : List E) k c, keyAt key x a = keyAt key d pivot →
          less cmp x a k = some c → (c = true ↔ ¬ keyAt key x k ≤ keyAt key d pivot) :=
        fun x k c hx hc => by
          rw [less_iff cmp key hkey hc, hx]
          omega
      have hup : ∀ (x : List E) k c, keyAt key x a = keyAt key d pivot →
          (less cmp x a k).map not = some c → (c = true ↔ keyAt key x k ≤ keyAt key d pivot) :=
        fun x k c hx hc => by
          cases hl : less cmp x a k with
          | none => simp [hl] at hc
          | some c' =>
            simp only [hl, Option.map_some', Option.some.injEq] at hc
            subst hc
            have := hdown x k c' hx hl
            cases c' <;> simp_all
      obtain ⟨w, r1, r2, r3, r4, r5, r6, r7, r8⟩ := partitionLoop_spec key _ _
        a b (keyAt key d pivot) (fun v => v ≤ keyAt key d pivot) hup hdown _ _ _ d0 d2 i2
        j2 hl (by omega) (by omega) hP0 (fun k hk1 hk2 => by omega)
        (fun k hk1 hk2 => by omega)
      refine ⟨w0.trans (w.widen (by omega) (le_refl _)), by omega, by omega,
        fun k hk1 hk2 => ?_, fun k hk1 hk2 => ?_⟩
      · by_cases hk : k = a
        · rw [hk, r1]
        · exact r7 k (by omega) hk2
      · have := r8 k (by omega) hk2
        omega

end Slices

/-! ### Heap sort -/

namespace Slices

variable {E : Type}

theorem siftDownLoop_sorted (cmp : E → E → Int) (key : E → Int)
    (hkey : ∀ x y, cmp x y < 0 ↔ key x < key y) (lo hi first : Nat) :
    ∀ (fuel r : Nat) (d d' : List E), siftDownLoop cmp hi first fuel r d = some d' → lo ≤ r →
      SiftInv key d first lo hi r →
      Within d d' (first + lo) (first + hi) ∧ HeapFrom key d' first lo hi
  | 0, _, _, _, h, _, _ => by simp [siftDownLoop] at h
  | fuel + 1, r, d, d', h, hlo, hI => by
    unfold siftDownLoop at h
    dsimp only at h
    by_cases hch : 2 * r + 1 ≥ hi
    · rw [if_pos hch] at h
      simp only [Option.some.injEq] at h
      subst h
      refine ⟨Within.refl _ _ _, fun c h1 h2 h3 => ?_⟩
      exact hI.1 c h1 h2 h3 (by omega)
    rw [if_neg hch] at h
    -- the part of the loop body after the larger child has been chosen
    have main : ∀ child : Nat, (child = 2 * r + 1 ∨ (child = 2 * r + 2 ∧ 2 * r + 2 < hi)) →
        (∀ c : Nat, 1 ≤ c → c < hi → (c - 1) / 2 = r →
          keyAt key d (first + c) ≤ keyAt key d (first + child)) →
        (match less cmp d (first + r) (first + child) with
          | none => none
          | some false => some d
          | some true =>
            (swap d (first + r) (first + child)).bind (siftDownLoop cmp hi first fuel child))
          = some d' →
        Within d d' (first + lo) (first + hi) ∧ HeapFrom key d' first lo hi := by
      intro child hchild hmax hm
      have hcr : r < child ∧ child < hi ∧ (child - 1) / 2 = r := by omega
      cases hl : less cmp d (first + r) (first + child) with
      | none => simp [hl] at hm
      | some c2 =>
        have hlt := less_iff cmp key hkey hl
        cases c2
        · simp only [hl, Option.some.injEq] at hm
          subst hm
          have hge : keyAt key d (first + child) ≤ keyAt key d (first + r) := by
            by_contra hcon
            exact absurd (hlt.mpr (by omega)) (by simp)
          refine ⟨Within.refl _ _ _, fun c h1 h2 h3 => ?_⟩
          by_cases hp : (c - 1) / 2 = r
          · rw [hp]
            exact le_trans (hmax c h1 h2 hp) hge
          · exact hI.1 c h1 h2 h3 hp
        · simp only [hl] at hm
          have hlt' := hlt.mp rfl
          cases hs : swap d (first + r) (first + child) with
          | none => simp [hs] at hm
          | some d1 =>
            simp only [hs, Option.some_bind] at hm
            have ks := keyAt_swap key hs
            have k_child : keyAt key d1 (first + child) = keyAt key d (first + r) := by
              rw [ks, if_pos rfl]
            have k_r : keyAt key d1 (first + r) = keyAt key d (first + child) := by
              rw [ks, if_neg (by omega), if_pos rfl]
            have k_other : ∀ x, x ≠ r → x ≠ child →
                keyAt key d1 (first + x) = keyAt key d (first + x) := fun x h1 h2 => by
              rw [ks, if_neg (by omega), if_neg (by omega)]
            have hI1 : SiftInv key d1 first lo hi child := by
              refine ⟨fun c h1 h2 h3 h4 => ?_, fun _ => ⟨by omega, by omega,
                fun c h1 h2 h3 => ?_⟩⟩
              · by_cases hp : (c - 1) / 2 = r
                · rw [hp, k_r]
                  by_cases hc : c = child
                  · rw [hc, k_child]
                    omega
                  · rw [k_other c (by omega) hc]
                    exact hmax c h1 h2 hp
                · by_cases hc : c = r
                  · subst hc
                    rw [k_r, k_other _ (by omega) (by omega)]
                    have hne : c ≠ lo := by omega
                    exact (hI.2 hne).2.2 child (by omega) hcr.2.1 hcr.2.2
                  · rw [k_other c hc (by omega), k_other _ hp h4]
                    exact hI.1 c h1 h2 h3 hp
              · rw [hcr.2.2, k_r, k_other c (by omega) (by omega)]
                have := hI.1 c h1 h2 (by omega) (by omega)
                rwa [h3] at this
            obtain ⟨w, hh⟩ := siftDownLoop_sorted cmp key hkey lo hi first fuel child d1 d' hm
              (by omega) hI1
            exact ⟨(within_swap hs (by omega) (by omega) (by omega) (by omega)).trans w, hh⟩
    by_cases h1 : 2 * r + 1 + 1 < hi
    · rw [if_pos h1] at h
      cases hc1 : less cmp d (first + (2 * r + 1)) (first + (2 * r + 1) + 1) with
      | none => simp [hc1] at h
      | some c =>
        simp only [hc1] at h
        have hlt := less_iff cmp key hkey hc1
        cases c
        · refine main (2 * r + 1) (Or.inl rfl) (fun c h1' h2' h3' => ?_) (by simpa using h)
          have hge : keyAt key d (first + (2 * r + 1) + 1) ≤ keyAt key d (first + (2 * r + 1)) := by
            by_contra hcon
            exact absurd (hlt.mpr (by omega)) (by simp)
          have hc : c = 2 * r + 1 ∨ c = 2 * r + 2 := by omega
          rcases hc with rfl | rfl
          · exact le_refl _
          · exact hge
        · refine main (2 * r + 2) (Or.inr ⟨rfl, by omega⟩) (fun c h1' h2' h3' => ?_)
            (by simpa using h)
          have hlt' := hlt.mp rfl
          have hc : c = 2 * r + 1 ∨ c = 2 * r + 2 := by omega
          rcases hc with rfl | rfl
          · rw [show first + (2 * r + 2) = first + (2 * r + 1) + 1 by omega]
            omega
          · exact le_refl _
    · rw [if_neg h1] at h
      refine main (2 * r + 1) (Or.inl rfl) (fun c h1' h2' h3' => ?_) (by simpa using h)
      have hc : c = 2 * r + 1 := by omega
      rw [hc]

theorem siftDownCmpFunc_sorted (cmp : E → E → Int) (key : E → Int)
    (hkey : ∀ x y, cmp x y < 0 ↔ key x < key y) {d d' : List E} {lo hi first : Nat}
    (h : siftDownCmpFunc cmp d lo hi first = some d')
    (hH : HeapFrom key d first (lo + 1) hi) :
    Within d d' (first + lo) (first + hi) ∧ HeapFrom key d' first lo hi :=
  siftDownLoop_sorted cmp key hkey lo hi first _ lo d d' h (le_refl _)
    ⟨fun c h1 h2 h3 h4 => hH c h1 h2 (by omega), fun hne => absurd rfl hne⟩

theorem heap_root_max (key : E → Int) {d : List E} {first n : Nat}
    (hH : HeapFrom key d first 0 n) :
    ∀ c, c < n → keyAt key d (first + c) ≤ keyAt key d (first + 0) := by
  intro c
  induction c using Nat.strong_induction_on with
  | _ c ih =>
    intro hc
    by_cases h0 : c = 0
    · rw [h0]
    · exact le_trans (hH c (by omega) hc (Nat.zero_le _)) (ih ((c - 1) / 2) (by omega) (by omega))

theorem heapBuild_sorted (cmp : E → E → Int) (key : E → Int)
    (hkey : ∀ x y, cmp x y < 0 ↔ key x < key y) (hi first : Nat) :
    ∀ (i : Nat) (d d' : List E), heapBuild cmp hi first i d = some d' →
      HeapFrom key d first i hi →
      Within d d' first (first + hi) ∧ HeapFrom key d' first 0 hi
  | 0, d, d', h, hH => by
    simp only [heapBuild, Option.some.injEq] at h
    subst h
    exact ⟨Within.refl _ _ _, hH⟩
  | i + 1, d, d', h, hH => by
    unfold heapBuild at h
    cases h1 : siftDownCmpFunc cmp d i hi first with
    | none => simp [h1] at h
    | some d1 =>
      simp only [h1, Option.some_bind] at h
      obtain ⟨w1, hh1⟩ := siftDownCmpFunc_sorted cmp key hkey h1 hH
      obtain ⟨w2, hh2⟩ := heapBuild_sorted cmp key hkey hi first i d1 d' h hh1
      exact ⟨(w1.widen (by omega) (le_refl _)).trans w2, hh2⟩

theorem heapPop_sorted (cmp : E → E → Int) (key : E → Int)
    (hkey : ∀ x y, cmp x y < 0 ↔ key x < key y) (hi first : Nat) :
    ∀ (n : Nat) (d d' : List E), heapPop cmp first n d = some d' → n ≤ hi →
      HeapFrom key d first 0 n → SortedOn key d (first + n) (first + hi) →
      (∀ c q, c < n → n ≤ q → q < hi → keyAt key d (first + c) ≤ keyAt key d (first + q)) →
      Within d d' first (first + hi) ∧ SortedOn key d' first (first + hi)
  | 0, d, d', h, _, _, hs, _ => by
    simp only [heapPop, Option.some.injEq] at h
    subst h
    exact ⟨Within.refl _ _ _, hs⟩
  | i + 1, d, d', h, hn, hH, hs, hx => by
    unfold heapPop at h
    cases h1 : swap d first (first + i) with
    | none => simp [h1] at h
    | some d1 =>
      simp only [h1, Option.some_bind] at h
      cases h2 : siftDownCmpFunc cmp d1 0 i first with
      | none => simp [h2] at h
      | some d2 =>
        simp only [h2, Option.some_bind] at h
        have ks := keyAt_swap key h1
        have hmax := heap_root_max key hH
        have k_i : keyAt key d1 (first + i) = keyAt key d (first + 0) := by
          rw [ks, if_pos rfl]
          rfl
        have k_0 : i ≠ 0 → keyAt key d1 (first + 0) = keyAt key d (first + i) := fun hi0 => by
          rw [ks, if_neg (by omega), if_pos (by omega)]
        have k_other : ∀ x, x ≠ 0 → x ≠ i →
            keyAt key d1 (first + x) = keyAt key d (first + x) := fun x h1 h2 => by
          rw [ks, if_neg (by omega), if_neg (by omega)]
        -- every entry of the smaller heap is an entry of the old heap
        have k_heap : ∀ c, c < i → ∃ c', c' < i + 1 ∧
            keyAt key d1 (first + c) = keyAt key d (first + c') := fun c hc => by
          by_cases h0 : c = 0
          · exact ⟨i, by omega, by rw [h0]; exact k_0 (by omega)⟩
          · exact ⟨c, by omega, k_other c h0 (by omega)⟩
        have hH1 : HeapFrom key d1 first (0 + 1) i := fun c hc1 hc2 hc3 => by
          rw [k_other c (by omega) (by omega), k_other _ (by omega) (by omega)]
          exact hH c hc1 (by omega) (Nat.zero_le _)
        obtain ⟨w2, hh2⟩ := siftDownCmpFunc_sorted cmp key hkey h2 hH1
        have w2' : Within d1 d2 first (first + i) := by simpa using w2
        have hs1 : SortedOn key d1 (first + i) (first + hi) := fun p q hp hpq hq => by
          obtain ⟨q', rfl⟩ : ∃ q', q = first + q' := ⟨q - first, by omega⟩
          rw [k_other q' (by omega) (by omega)]
          by_cases hpi : p = first + i
          · rw [hpi, k_i]
            exact hx 0 q' (by omega) (by omega) (by omega)
          · obtain ⟨p', rfl⟩ : ∃ p', p = first + p' := ⟨p - first, by omega⟩
            rw [k_other p' (by omega) (by omega)]
            exact hs _ _ (by omega) hpq hq
        have hx1 : ∀ c q, c < i → i ≤ q → q < hi →
            keyAt key d1 (first + c) ≤ keyAt key d1 (first + q) := fun c q hc hq1 hq2 => by
          obtain ⟨c', hc', e⟩ := k_heap c hc
          rw [e]
          by_cases hqi : q = i
          · rw [hqi, k_i]
            exact hmax c' hc'
          · rw [k_other q (by omega) hqi]
            exact hx c' q hc' (by omega) hq2
        have hx2 : ∀ c q, c < i → i ≤ q → q < hi →
            keyAt key d2 (first + c) ≤ keyAt key d2 (first + q) := fun c q hc hq1 hq2 => by
          rw [w2'.key_out key (first + q) (by omega)]
          exact w2'.key_in key (fun v => v ≤ keyAt key d1 (first + q))
            (fun k hk1 hk2 => by
              obtain ⟨k', rfl⟩ : ∃ k', k = first + k' := ⟨k - first, by omega⟩
              exact hx1 k' q (by omega) hq1 hq2) (first + c) (by omega) (by omega)
        obtain ⟨w3, s3⟩ := heapPop_sorted cmp key hkey hi first i d2 d' h (by omega) hh2
          (hs1.outside key w2' (Or.inr (le_refl _))) hx2
        exact ⟨((within_swap h1 (le_refl _) (by omega) (by omega) (by omega)).trans
          (w2'.widen (le_refl _) (by omega))).trans w3, s3⟩

theorem heapSortCmpFunc_sorted (cmp : E → E → Int) (key : E → Int)
    (hkey : ∀ x y, cmp x y < 0 ↔ key x < key y) {d d' : List E} {a b : Nat}
    (h : heapSortCmpFunc cmp d a b = some d') (hab : a ≤ b) :
    Within d d' a b ∧ SortedOn key d' a b := by
  unfold heapSortCmpFunc at h
  dsimp only at h
  cases h1 : heapBuild cmp (b - a) a ((b - a - 1) / 2 + 1) d with
  | none =>
    rw [h1] at h
    simp at h
  | some d1 =>
    rw [h1] at h
    simp only [Option.some_bind] at h
    obtain ⟨w1, hh1⟩ := heapBuild_sorted cmp key hkey (b - a) a _ d d1 h1
      (fun c hc1 hc2 hc3 => by omega)
    obtain ⟨w2, s2⟩ := heapPop_sorted cmp key hkey (b - a) a (b - a) d1 d' h (le_refl _) hh1
      (fun p q hp hpq hq => by omega) (fun c q hc hq1 hq2 => by omega)
    have e : a + (b - a) = b := by omega
    rw [e] at w1 w2 s2
    exact ⟨w1.trans w2, s2⟩

end Slices

/-! ### The partial insertion sort, and the steps that only move entries around -/

namespace Slices

variable {E : Type}

theorem Floor.rearranged (key : E → Int) {d d' : List E} {a b a' b' : Nat} (h : Floor key d a b)
    (hw : Within d d' a' b') (ha : a ≤ a') (hb : b' ≤ b) : Floor key d' a b := by
  intro ha0 k hk1 hk2
  have w := hw.widen ha hb
  rw [w.key_out key (a - 1) (by omega)]
  exact w.key_in key (fun v => keyAt key d (a - 1) ≤ v) (h ha0) k hk1 hk2

theorem shiftLeft_eq (cmp : E → E → Int) (key : E → Int)
    (hkey : ∀ x y, cmp x y < 0 ↔ key x < key y) (a b : Nat) :
    ∀ (j : Nat) (d d' : List E), shiftLeft cmp j d = some d' → a ≤ j → j < b →
      Floor key d a b → insertionInner cmp a j d = some d'
  | 0, d, d', h, _, _, _ => by
    simpa [shiftLeft, insertionInner] using h
  | j + 1, d, d', h, ha, hb, hF => by
    unfold shiftLeft at h
    unfold insertionInner
    cases hl : less cmp d (j + 1) j with
    | none => simp [hl] at h
    | some c =>
      have hlt := less_iff cmp key hkey hl
      simp only [hl] at h
      by_cases hgt : j + 1 > a
      · rw [if_pos hgt]
        cases c
        · simpa using h
        · cases hs : swap d (j + 1) j with
          | none => simp [hs] at h
          | some d1 =>
            simp only [hs, Option.some_bind] at h ⊢
            exact shiftLeft_eq cmp key hkey a b j d1 d' h (by omega) (by omega)
              (hF.rearranged key (within_swap hs (by omega) hb (by omega) (by omega)) (le_refl _)
                (le_refl _))
      · rw [if_neg hgt]
        have haj : a = j + 1 := by omega
        have hfl := hF (by omega) (j + 1) (by omega) hb
        rw [haj] at hfl
        cases c
        · simpa using h
        · have := hlt.mp rfl
          simp only [Nat.add_sub_cancel] at hfl
          omega

theorem scanSorted_spec (cmp : E → E → Int) (d : List E) (b : Nat) :
    ∀ (fuel i i' : Nat), scanSorted cmp d b fuel i = some i' →
      i ≤ i' ∧ (i' ≤ b ∨ i' = i) ∧ (∀ k, i ≤ k → k < i' → less cmp d k (k - 1) = some false) ∧
      (i' < b → less cmp d i' (i' - 1) = some true)
  | 0, i, i', h => by
    unfold scanSorted at h
    split at h
    · simp at h
    · simp only [Option.some.injEq] at h
      subst h
      exact ⟨le_refl _, Or.inr rfl, fun k h1 h2 => by omega, fun h => by omega⟩
  | fuel + 1, i, i', h => by
    unfold scanSorted at h
    split at h
    · cases ht : less cmp d i (i - 1) with
      | none => simp [ht] at h
      | some c =>
        cases c
        · simp only [ht] at h
          obtain ⟨h1, h2, h3, h4⟩ := scanSorted_spec cmp d b fuel (i + 1) i' h
          refine ⟨by omega, by omega, fun k hk1 hk2 => ?_, h4⟩
          by_cases hk : k = i
          · rw [hk]
            exact ht
          · exact h3 k (by omega) hk2
        · simp only [ht, Option.some.injEq] at h
          subst h
          exact ⟨le_refl _, Or.inr rfl, fun k h1 h2 => by omega, fun _ => ht⟩
    · simp only [Option.some.injEq] at h
      subst h
      exact ⟨le_refl _, Or.inr rfl, fun k h1 h2 => by omega, fun h => by omega⟩

theorem SortedOn.extend (key : E → Int) {d : List E} {a i i' : Nat} (h : SortedOn key d a i)
    (hadj : ∀ k, i ≤ k → k < i' → keyAt key d (k - 1) ≤ keyAt key d k) :
    SortedOn key d a i' := by
  intro p q
  induction q with
  | zero => intro _ h2 _; omega
  | succ q ih =>
    intro h1 h2 h3
    by_cases hq : q + 1 < i
    · exact h p (q + 1) h1 h2 hq
    · have hstep := hadj (q + 1) (by omega) h3
      simp only [Nat.add_sub_cancel] at hstep
      by_cases hp : p = q
      · rw [hp]
        exact hstep
      · exact le_trans (ih h1 (by omega) (by omega)) hstep

theorem shiftRight_within (cmp : E → E → Int) (b : Nat) :
    ∀ (fuel j : Nat) (d d' : List E), shiftRight cmp b fuel j d = some d' → 1 ≤ j →
      Within d d' (j - 1) b
  | 0, j, d, d', h, _ => by
    unfold shiftRight at h
    split at h
    · simp at h
    · simp only [Option.some.injEq] at h
      subst h
      exact Within.refl _ _ _
  | fuel + 1, j, d, d', h, hj => by
    unfold shiftRight at h
    split at h
    · rename_i hjb
      cases hl : less cmp d j (j - 1) with
      | none => simp [hl] at h
      | some c =>
        cases c
        · simp only [hl, Option.some.injEq] at h
          subst h
          exact Within.refl _ _ _
        · simp only [hl] at h
          cases hs : swap d j (j - 1) with
          | none => simp [hs] at h
          | some d1 =>
            simp only [hs, Option.some_bind] at h
            have w := shiftRight_within cmp b fuel (j + 1) d1 d' h (by omega)
            exact (within_swap hs (by omega) hjb (le_refl _) (by omega)).trans
              (w.widen (by omega) (le_refl _))
    · simp only [Option.some.injEq] at h
      subst h
      exact Within.refl _ _ _

theorem partialInsertionLoop_sorted (cmp : E → E → Int) (key : E → Int)
    (hkey : ∀ x y, cmp x y < 0 ↔ key x < key y) (a b : Nat) :
    ∀ (steps i : Nat) (d d' : List E) (flag : Bool),
      partialInsertionLoop cmp a b steps i d = some (d', flag) → a < i → i ≤ b →
      Floor key d a b → SortedOn key d a i →
      Within d d' a b ∧ (flag = true → SortedOn key d' a b)
  | 0, i, d, d', flag, h, _, _, _, _ => by
    simp only [partialInsertionLoop, Option.some.injEq, Prod.mk.injEq] at h
    obtain ⟨rfl, rfl⟩ := h
    exact ⟨Within.refl _ _ _, fun hf => by simp at hf⟩
  | steps + 1, i, d, d', flag, h, hai, hib, hF, hs => by
    unfold partialInsertionLoop at h
    cases h1 : scanSorted cmp d b (b - i) i with
    | none => simp [h1] at h
    | some i1 =>
      simp only [h1, Option.some_bind] at h
      obtain ⟨u1, u2, u3, u4⟩ := scanSorted_spec cmp d b _ i i1 h1
      have hs1 : SortedOn key d a i1 := hs.extend key fun k hk1 hk2 => by
        have hl := less_iff cmp key hkey (u3 k hk1 hk2)
        by_contra hcon
        exact absurd (hl.mpr (by omega)) (by simp)
      by_cases hb1 : i1 = b
      · rw [if_pos hb1] at h
        simp only [Option.some.injEq, Prod.mk.injEq] at h
        obtain ⟨rfl, rfl⟩ := h
        exact ⟨Within.refl _ _ _, fun _ => hb1 ▸ hs1⟩
      rw [if_neg hb1] at h
      by_cases h50 : b - a < 50
      · rw [if_pos h50] at h
        simp only [Option.some.injEq, Prod.mk.injEq] at h
        obtain ⟨rfl, rfl⟩ := h
        exact ⟨Within.refl _ _ _, fun hf => by simp at hf⟩
      rw [if_neg h50] at h
      cases h2 : swap d i1 (i1 - 1) with
      | none => simp [h2] at h
      | some d1 =>
        simp only [h2, Option.some_bind] at h
        have w1 : Within d d1 a b := within_swap h2 (by omega) (by omega) (by omega) (by omega)
        have ks := keyAt_swap key h2
        have hs_d1 : SortedOn key d1 a (i1 - 1) := fun p q hp hpq hq => by
          rw [ks p, ks q, if_neg (by omega), if_neg (by omega), if_neg (by omega),
            if_neg (by omega)]
          exact hs1 p q hp hpq (by omega)
        cases h3 : (if i1 - a ≥ 2 then shiftLeft cmp (i1 - 1) d1 else some d1) with
        | none => simp [h3] at h
        | some d2 =>
          simp only [h3, Option.some_bind] at h
          have r2 : Within d1 d2 a i1 ∧ SortedOn key d2 a i1 := by
            by_cases hge : i1 - a ≥ 2
            · rw [if_pos hge] at h3
              have e := shiftLeft_eq cmp key hkey a b (i1 - 1) d1 d2 h3 (by omega) (by omega)
                (hF.rearranged key w1 (le_refl _) (le_refl _))
              have := insertionInner_sorted cmp key hkey a (i1 - 1) (i1 - 1) d1 d2 e (by omega)
                (le_refl _) ⟨fun p q hp hpq hq _ hq' => hs_d1 p q hp hpq (by omega),
                  fun q hq1 hq2 => by omega⟩
              rwa [show i1 - 1 + 1 = i1 by omega] at this
            · rw [if_neg hge] at h3
              simp only [Option.some.injEq] at h3
              subst h3
              exact ⟨Within.refl _ _ _, fun p q hp hpq hq => by omega⟩
          cases h4 : (if b - i1 ≥ 2 then shiftRight cmp b (b - i1) (i1 + 1) d2
              else some d2) with
          | none => simp [h4] at h
          | some d3 =>
            simp only [h4, Option.some_bind] at h
            have w3 : Within d2 d3 i1 b := by
              by_cases hge : b - i1 ≥ 2
              · rw [if_pos hge] at h4
                have := shiftRight_within cmp b _ _ d2 d3 h4 (by omega)
                rwa [show i1 + 1 - 1 = i1 by omega] at this
              · rw [if_neg hge] at h4
                simp only [Option.some.injEq] at h4
                subst h4
                exact Within.refl _ _ _
            have w13 : Within d d3 a b :=
              (w1.trans (r2.1.widen (le_refl _) (by omega))).trans
                (w3.widen (by omega) (le_refl _))
            obtain ⟨w, s⟩ := partialInsertionLoop_sorted cmp key hkey a b steps i1 d3 d' flag h
              (by omega) (by omega) (hF.rearranged key w13 (le_refl _) (le_refl _))
              (r2.2.outside key w3 (Or.inl (le_refl _)))
            exact ⟨w13.trans w, s⟩

theorem partialInsertionSortCmpFunc_sorted (cmp : E → E → Int) (key : E → Int)
    (hkey : ∀ x y, cmp x y < 0 ↔ key x < key y) {d d' : List E} {a b : Nat} {flag : Bool}
    (h : partialInsertionSortCmpFunc cmp d a b = some (d', flag)) (hab : a < b)
    (hF : Floor key d a b) : Within d d' a b ∧ (flag = true → SortedOn key d' a b) :=
  partialInsertionLoop_sorted cmp key hkey a b 5 (a + 1) d d' flag h (by omega) (by omega) hF
    (fun p q hp hpq hq => by omega)

theorem breakPatternsLoop_within (a b length modulus idx : Nat) (hl : 1 ≤ length)
    (hm : modulus ≤ 2 * length) (hab : a + length = b) :
    ∀ (n i random : Nat) (d d' : List E),
      breakPatternsLoop a length modulus idx n i random d = some d' → a ≤ idx + i →
      idx + i + n ≤ b → Within d d' a b
  | 0, _, _, d, d', h, _, _ => by
    simp only [breakPatternsLoop, Option.some.injEq] at h
    subst h
    exact Within.refl _ _ _
  | n + 1, i, random, d, d', h, h1, h2 => by
    unfold breakPatternsLoop at h
    dsimp only at h
    have hand : xorshiftNext random &&& (modulus - 1) ≤ modulus - 1 := Nat.and_le_right
    cases hs : swap d (idx + i)
        (a + if xorshiftNext random &&& (modulus - 1) ≥ length
          then (xorshiftNext random &&& (modulus - 1)) - length
          else xorshiftNext random &&& (modulus - 1)) with
    | none => simp [hs] at h
    | some d1 =>
      simp only [hs, Option.some_bind] at h
      have w := breakPatternsLoop_within a b length modulus idx hl hm hab n (i + 1) _ d1 d' h
        (by omega) (by omega)
      exact (within_swap hs (by omega) (by omega) (by omega) (by split <;> omega)).trans w

theorem breakPatternsCmpFunc_within {d d' : List E} {a b : Nat}
    (h : breakPatternsCmpFunc d a b = some d') (hab : a ≤ b) : Within d d' a b := by
  unfold breakPatternsCmpFunc at h
  dsimp only at h
  by_cases h8 : b - a ≥ 8
  · rw [if_pos h8] at h
    exact breakPatternsLoop_within a b (b - a) _ _ (by omega) (nextPowerOfTwo_le _ (by omega))
      (by omega) 3 0 _ d d' h (by omega) (by omega)
  · rw [if_neg h8] at h
    simp only [Option.some.injEq] at h
    subst h
    exact Within.refl _ _ _

theorem reverseRangeLoop_within (a b : Nat) :
    ∀ (fuel i j : Nat) (d d' : List E), reverseRangeLoop fuel i j d = some d' → a ≤ i →
      j < b → Within d d' a b
  | 0, i, j, d, d', h, _, _ => by
    unfold reverseRangeLoop at h
    split at h
    · simp at h
    · simp only [Option.some.injEq] at h
      subst h
      exact Within.refl _ _ _
  | fuel + 1, i, j, d, d', h, hi, hj => by
    unfold reverseRangeLoop at h
    split at h
    · cases hs : swap d i j with
      | none => simp [hs] at h
      | some d1 =>
        simp only [hs, Option.some_bind] at h
        exact (within_swap hs hi (by omega) (by omega) hj).trans
          (reverseRangeLoop_within a b fuel (i + 1) (j - 1) d1 d' h (by omega) (by omega))
    · simp only [Option.some.injEq] at h
      subst h
      exact Within.refl _ _ _

theorem reverseRangeCmpFunc_within {d d' : List E} {a b : Nat}
    (h : reverseRangeCmpFunc d a b = some d') (hab : a < b) : Within d d' a b :=
  reverseRangeLoop_within a b _ _ _ d d' h (le_refl _) (by omega)

end Slices

/-! ### Pattern-defeating quicksort -/

namespace Slices

variable {E : Type}

theorem SortedOn.join (key : E → Int) {d : List E} {a mid b : Nat} (v : Int)
    (hl : ∀ k, a ≤ k → k < mid → keyAt key d k ≤ v) (hm : keyAt key d mid = v)
    (hr : ∀ k, mid < k → k < b → v ≤ keyAt key d k) (sl : SortedOn key d a mid)
    (sr : SortedOn key d (mid + 1) b) : SortedOn key d a b := by
  intro p q hp hpq hq
  by_cases h1 : q < mid
  · exact sl p q hp hpq h1
  · by_cases h2 : mid < p
    · exact sr p q (by omega) hpq hq
    · have e1 : keyAt key d p ≤ v := by
        by_cases hpm : p = mid
        · rw [hpm, hm]
        · exact hl p hp (by omega)
      have e2 : v ≤ keyAt key d q := by
        by_cases hqm : q = mid
        · rw [hqm, hm]
        · exact hr q (by omega) hq
      exact le_trans e1 e2

theorem pdqsortCmpFunc_sorted (cmp : E → E → Int) (key : E → Int)
    (hkey : ∀ x y, cmp x y < 0 ↔ key x < key y) :
    ∀ (fuel : Nat) (d : List E) (a b limit : Nat) (wb wp : Bool) (d' : List E),
      pdqsortCmpFunc cmp fuel d a b limit wb wp = some d' → a ≤ b → b ≤ d.length →
      Floor key d a b → Within d d' a b ∧ SortedOn key d' a b
  | 0, _, _, _, _, _, _, _, h, _, _, _ => by simp [pdqsortCmpFunc] at h
  | fuel + 1, d, a, b, limit, wb, wp, d', h, hab, hb, hF => by
    unfold pdqsortCmpFunc at h
    dsimp only at h
    by_cases hlen : b - a ≤ 12
    · rw [if_pos hlen] at h
      exact insertionSortCmpFunc_sorted cmp key hkey h
    rw [if_neg hlen] at h
    by_cases hlim : limit = 0
    · rw [if_pos hlim] at h
      exact heapSortCmpFunc_sorted cmp key hkey h hab
    rw [if_neg hlim] at h
    -- breakPatterns
    cases e1 : (if (!wb) = true then
        (breakPatternsCmpFunc d a b).map fun x => (x, limit - 1)
        else some (d, limit)) with
    | none =>
      rw [e1] at h
      simp at h
    | some s1 =>
      obtain ⟨d1, l1⟩ := s1
      rw [e1] at h
      simp only [Option.some_bind] at h
      have w1 : Within d d1 a b := by
        by_cases hwb : (!wb) = true
        · rw [if_pos hwb] at e1
          cases hbp : breakPatternsCmpFunc d a b with
          | none => simp [hbp] at e1
          | some x =>
            simp only [hbp, Option.map_some', Option.some.injEq, Prod.mk.injEq] at e1
            rw [← e1.1]
            exact breakPatternsCmpFunc_within hbp hab
        · rw [if_neg hwb] at e1
          simp only [Option.some.injEq, Prod.mk.injEq] at e1
          rw [← e1.1]
          exact Within.refl _ _ _
      -- choosePivot
      cases e2 : choosePivotCmpFunc cmp d1 a b with
      | none => simp [e2] at h
      | some ph =>
        obtain ⟨p, hint⟩ := ph
        simp only [e2, Option.some_bind] at h
        obtain ⟨p', hint', e2', hp1, hp2⟩ := choosePivotCmpFunc_ok cmp d1 a b (by omega)
          (by rw [w1.1]; exact hb)
        rw [e2] at e2'
        simp only [Option.some.injEq, Prod.mk.injEq] at e2'
        obtain ⟨rfl, rfl⟩ := e2'
        -- reverseRange
        cases e3 : (if hint = sortedHint.decreasingHint then
            (reverseRangeCmpFunc d1 a b).map fun x =>
              (x, (b - 1) - (p - a), sortedHint.increasingHint)
            else some (d1, p, hint)) with
        | none =>
          rw [e3] at h
          simp at h
        | some s2 =>
          obtain ⟨d2, p2, hint2⟩ := s2
          rw [e3] at h
          simp only [Option.some_bind] at h
          have r2 : Within d1 d2 a b ∧ a ≤ p2 ∧ p2 < b := by
            by_cases hd : hint = sortedHint.decreasingHint
            · rw [if_pos hd] at e3
              cases hrr : reverseRangeCmpFunc d1 a b with
              | none => simp [hrr] at e3
              | some x =>
                simp only [hrr, Option.map_some', Option.some.injEq, Prod.mk.injEq] at e3
                rw [← e3.1, ← e3.2.1]
                exact ⟨reverseRangeCmpFunc_within hrr (by omega), by omega, by omega⟩
            · rw [if_neg hd] at e3
              simp only [Option.some.injEq, Prod.mk.injEq] at e3
              rw [← e3.1, ← e3.2.1]
              exact ⟨Within.refl _ _ _, hp1, hp2⟩
          obtain ⟨w2, hp3, hp4⟩ := r2
          have w12 : Within d d2 a b := w1.trans w2
          -- partialInsertionSort
          cases e4 : (if (wb && wp && decide (hint2 = sortedHint.increasingHint)) = true then
              partialInsertionSortCmpFunc cmp d2 a b
              else some (d2, false)) with
          | none =>
            rw [e4] at h
            simp at h
          | some s3 =>
            obtain ⟨d3, f⟩ := s3
            rw [e4] at h
            simp only [Option.some_bind] at h
            have r3 : Within d2 d3 a b ∧ (f = true → SortedOn key d3 a b) := by
              by_cases hpi : (wb && wp && decide (hint2 = sortedHint.increasingHint)) = true
              · rw [if_pos hpi] at e4
                exact partialInsertionSortCmpFunc_sorted cmp key hkey e4 (by omega)
                  (hF.rearranged key w12 (le_refl _) (le_refl _))
              · rw [if_neg hpi] at e4
                simp only [Option.some.injEq, Prod.mk.injEq] at e4
                rw [← e4.1, ← e4.2]
                exact ⟨Within.refl _ _ _, fun hf => by simp at hf⟩
            obtain ⟨w3, s3⟩ := r3
            have w13 : Within d d3 a b := w12.trans w3
            have hF3 : Floor key d3 a b := hF.rearranged key w13 (le_refl _) (le_refl _)
            have hb3 : b ≤ d3.length := by rw [w13.1]; exact hb
            by_cases hf : f = true
            · rw [if_pos hf] at h
              simp only [Option.some.injEq] at h
              subst h
              exact ⟨w13, s3 hf⟩
            rw [if_neg hf] at h
            cases e5 : (if a > 0 then (less cmp d3 (a - 1) p2).map not else some false) with
            | none =>
              rw [e5] at h
              simp at h
            | some c =>
              rw [e5] at h
              simp only [Option.some_bind] at h
              by_cases hc : c = true
              · -- the pivot equals the entry before the range: partitionEqual
                rw [if_pos hc] at h
                have hpe : a > 0 ∧ keyAt key d3 p2 ≤ keyAt key d3 (a - 1) := by
                  by_cases ha0 : a > 0
                  · rw [if_pos ha0] at e5
                    cases hl : less cmp d3 (a - 1) p2 with
                    | none => simp [hl] at e5
                    | some c' =>
                      simp only [hl, Option.map_some', Option.some.injEq] at e5
                      have hlt := less_iff cmp key hkey hl
                      refine ⟨ha0, ?_⟩
                      by_contra hcon
                      have : c' = true := hlt.mpr (by omega)
                      rw [this, hc] at e5
                      simp at e5
                  · rw [if_neg ha0] at e5
                    simp only [Option.some.injEq] at e5
                    rw [← e5] at hc
                    simp at hc
                cases e6 : partitionEqualCmpFunc cmp d3 a b p2 with
                | none => simp [e6] at h
                | some pe =>
                  obtain ⟨d4, mid⟩ := pe
                  simp only [e6, Option.some_bind] at h
                  obtain ⟨w4, hm1, hm2, hle, hgt⟩ :=
                    partitionEqualCmpFunc_sorted cmp key hkey e6 hp3 hp4
                  have hF4 : Floor key d4 a b := hF3.rearranged key w4 (le_refl _) (le_refl _)
                  have k4 : keyAt key d4 (a - 1) = keyAt key d3 (a - 1) :=
                    w4.key_out key _ (by omega)
                  obtain ⟨w5, s5⟩ := pdqsortCmpFunc_sorted cmp key hkey fuel d4 mid b l1 wb wp d'
                    h hm2 (by rw [w4.1]; exact hb3) (fun _ k hk1 hk2 => by
                      have := hle (mid - 1) (by omega) (by omega)
                      have := hgt k hk1 hk2
                      omega)
                  refine ⟨w13.trans (w4.trans (w5.widen (by omega) (le_refl _))), ?_⟩
                  intro x y hx hxy hy
                  by_cases hxm : mid ≤ x
                  · exact s5 x y hxm hxy hy
                  · have ex : keyAt key d' x ≤ keyAt key d3 p2 := by
                      rw [w5.key_out key x (by omega)]
                      exact hle x hx (by omega)
                    have ey : keyAt key d3 p2 ≤ keyAt key d' y := by
                      by_cases hym : mid ≤ y
                      · have := w5.key_in key (fun v => keyAt key d3 p2 < v) hgt y hym hy
                        omega
                      · rw [w5.key_out key y (by omega)]
                        have := hF4 hpe.1 y (by omega) hy
                        omega
                    exact le_trans ex ey
              · -- an ordinary partition
                rw [if_neg hc] at h
                cases e6 : partitionCmpFunc cmp d3 a b p2 with
                | none => simp [e6] at h
                | some pr =>
                  obtain ⟨d4, mid, ap⟩ := pr
                  simp only [e6, Option.some_bind] at h
                  obtain ⟨w4, hm1, hm2, hlt, hge⟩ :=
                    partitionCmpFunc_sorted cmp key hkey e6 hp3 hp4
                  have hF4 : Floor key d4 a b := hF3.rearranged key w4 (le_refl _) (le_refl _)
                  have hb4 : b ≤ d4.length := by rw [w4.1]; exact hb3
                  have w14 : Within d d4 a b := w13.trans w4
                  by_cases hlr : mid - a < b - mid
                  · rw [if_pos hlr] at h
                    cases e7 : pdqsortCmpFunc cmp fuel d4 a mid l1 true true with
                    | none => simp [e7] at h
                    | some d5 =>
                      simp only [e7, Option.some_bind] at h
                      obtain ⟨w5, s5⟩ := pdqsortCmpFunc_sorted cmp key hkey fuel d4 a mid l1
                        true true d5 e7 hm1 (by omega)
                        (fun ha0 k hk1 hk2 => hF4 ha0 k hk1 (by omega))
                      have km : keyAt key d5 mid = keyAt key d4 mid :=
                        w5.key_out key mid (by omega)
                      obtain ⟨w6, s6⟩ := pdqsortCmpFunc_sorted cmp key hkey fuel d5 (mid + 1) b
                        l1 _ ap d' h (by omega) (by rw [w5.1]; exact hb4)
                        (fun _ k hk1 hk2 => by
                          rw [Nat.add_sub_cancel, km, w5.key_out key k (by omega)]
                          exact hge k (by omega) hk2)
                      refine ⟨w14.trans ((w5.widen (le_refl _) (by omega)).trans
                        (w6.widen (by omega) (le_refl _))), ?_⟩
                      refine SortedOn.join key (keyAt key d4 mid) (fun k hk1 hk2 => ?_) ?_
                        (fun k hk1 hk2 => ?_) (s5.outside key w6 (Or.inl (by omega))) s6
                      · rw [w6.key_out key k (by omega)]
                        have := w5.key_in key (fun v => v < keyAt key d4 mid) hlt k hk1 hk2
                        omega
                      · rw [w6.key_out key mid (by omega), km]
                      · exact w6.key_in key (fun v => keyAt key d4 mid ≤ v)
                          (fun k hk1 hk2 => by
                            rw [w5.key_out key k (by omega)]
                            exact hge k (by omega) hk2) k (by omega) hk2
                  · rw [if_neg hlr] at h
                    cases e7 : pdqsortCmpFunc cmp fuel d4 (mid + 1) b l1 true true with
                    | none => simp [e7] at h
                    | some d5 =>
                      simp only [e7, Option.some_bind] at h
                      obtain ⟨w5, s5⟩ := pdqsortCmpFunc_sorted cmp key hkey fuel d4 (mid + 1) b
                        l1 true true d5 e7 (by omega) hb4
                        (fun _ k hk1 hk2 => by
                          rw [Nat.add_sub_cancel]
                          exact hge k (by omega) hk2)
                      have km : keyAt key d5 mid = keyAt key d4 mid :=
                        w5.key_out key mid (by omega)
                      have hF5 : Floor key d5 a b := hF4.rearranged key w5 (by omega) (le_refl _)
                      obtain ⟨w6, s6⟩ := pdqsortCmpFunc_sorted cmp key hkey fuel d5 a mid
                        l1 _ ap d' h hm1 (by rw [w5.1]; omega)
                        (fun ha0 k hk1 hk2 => hF5 ha0 k hk1 (by omega))
                      refine ⟨w14.trans ((w5.widen (by omega) (le_refl _)).trans
                        (w6.widen (le_refl _) (by omega))), ?_⟩
                      refine SortedOn.join key (keyAt key d4 mid) (fun k hk1 hk2 => ?_) ?_
                        (fun k hk1 hk2 => ?_) s6 (s5.outside key w6 (Or.inr (by omega)))
                      · have := w6.key_in key (fun v => v < keyAt key d4 mid)
                          (fun k hk1 hk2 => by
                            rw [w5.key_out key k (by omega)]
                            exact hlt k hk1 hk2) k hk1 hk2
                        omega
                      · rw [w6.key_out key mid (by omega), km]
                      · rw [w6.key_out key k (by omega)]
                        exact w5.key_in key (fun v => keyAt key d4 mid ≤ v)
                          (fun k hk1 hk2 => hge k (by omega) hk2) k (by omega) hk2

/-- `slices.SortFunc` with a comparison that orders by `key` puts the keys in ascending
order: in what it returns, no entry has a larger key than a later entry. -/
theorem SortFunc_sorted (cmp : E → E → Int) (key : E → Int)
    (hkey : ∀ x y, cmp x y < 0 ↔ key x < key y) {x out : List E}
    (h : SortFunc cmp x = some out) : List.Pairwise (fun u v => key u ≤ key v) out := by
  obtain ⟨w, s⟩ := pdqsortCmpFunc_sorted cmp key hkey _ x 0 x.length _ true true out h
    (Nat.zero_le _) (le_refl _) (fun h0 => by omega)
  rw [List.pairwise_iff_getElem]
  intro i j hi hj hij
  have := s i j (Nat.zero_le _) hij (by rw [← w.1]; exact hj)
  unfold keyAt at this
  rwa [List.getElem?_eq_getElem hi, List.getElem?_eq_getElem hj] at this

end Slices

/-! ## `Ranking` -/

theorem Ranking_perm (l : League) :
    ∃ out, l.Ranking = some (out, l) ∧ out.Perm (l.Teams.map Team.Name) := by
  obtain ⟨out, h, p⟩ := Slices.SortFunc_ok l.rankCmp l.teamNames
  refine ⟨out, ?_, by rwa [teamNames_eq] at p⟩
  unfold League.Ranking
  rw [h]
  rfl

theorem rankCmp_NewLeague (roster : List Team) (t1 t2 : String) :
    ¬ (NewLeague roster).rankCmp t1 t2 < 0 := by
  have h := NewLeague_counts roster
  have h1 := h t1
  have h2 := h t2
  have e1 : mapGet (NewLeague roster).Wins t1 = 0 := by omega
  have e2 : mapGet (NewLeague roster).Wins t2 = 0 := by omega
  unfold League.rankCmp
  rw [e1, e2]
  decide

/-! ## Construction and match reports -/

/-- C4, as the code has it: `NewLeague` cannot fail. For every roster, with or without
repeated names, it returns a league whose `Teams` is the roster as given and whose `Wins` is
a map that has been made and holds exactly the roster's names, each at 0. -/
theorem NewLeague_total (roster : List Team) :
    ∃ l : League, NewLeague roster = l ∧ l.Teams = roster ∧ l.Wins.isSome = true ∧
      ∀ n, mapFind l.Wins n = if n ∈ roster.map Team.Name then some 0 else none :=
  ⟨NewLeague roster, rfl, NewLeague_Teams roster, NewLeague_made roster, NewLeague_Wins roster⟩

/-- C4 fails at the roster `[A, A]`: two teams share the name `A`, and `NewLeague` returns
a league, both teams in it and `A` at 0 wins. -/
theorem NewLeague_duplicate_roster :
    ¬ (([⟨"A", []⟩, ⟨"A", []⟩] : List Team).map Team.Name).Nodup ∧
    ∃ l : League, NewLeague [⟨"A", []⟩, ⟨"A", []⟩] = l ∧
      l.Teams.map Team.Name = ["A", "A"] ∧ mapFind l.Wins "A" = some 0 :=
  ⟨by decide, _, rfl, by decide, by decide⟩

/-- C5, as the code has it: on a league whose `Wins` map is not nil,
`MatchResult(team1, score1, team2, score2)` returns and changes the counts (an absent name
read as 0) as follows. If `score1 > score2` the count of `team1` becomes the 64 bit sum of
the old count and 1, which is the old count plus exactly 1 when the old count is an `int`
below the largest one; likewise for `team2` if `score2 > score1`; with equal scores no count
changes; and in every case the count of every name other than the winner is unchanged. -/
theorem MatchResult_counts_change (l : League) (team1 team2 : String) (score1 score2 : Int)
    (hmade : l.Wins.isSome = true) :
    ∃ l', l.MatchResult team1 score1 team2 score2 = some l' ∧
    (score1 > score2 →
      mapGet l'.Wins team1 = wrapInt (mapGet l.Wins team1 + 1) ∧
      (-2 ^ 63 ≤ mapGet l.Wins team1 → mapGet l.Wins team1 < 2 ^ 63 - 1 →
        mapGet l'.Wins team1 = mapGet l.Wins team1 + 1) ∧
      ∀ n, n ≠ team1 → mapGet l'.Wins n = mapGet l.Wins n) ∧
    (score2 > score1 →
      mapGet l'.Wins team2 = wrapInt (mapGet l.Wins team2 + 1) ∧
      (-2 ^ 63 ≤ mapGet l.Wins team2 → mapGet l.Wins team2 < 2 ^ 63 - 1 →
        mapGet l'.Wins team2 = mapGet l.Wins team2 + 1) ∧
      ∀ n, n ≠ team2 → mapGet l'.Wins n = mapGet l.Wins n) ∧
    (score1 = score2 → ∀ n, mapGet l'.Wins n = mapGet l.Wins n) := by
  obtain ⟨l', e, _, _, hget, _⟩ := MatchResult_made l team1 team2 score1 score2 hmade
  refine ⟨l', e, fun h => ⟨?_, fun h1 h2 => ?_, fun n hn => ?_⟩,
    fun h => ⟨?_, fun h1 h2 => ?_, fun n hn => ?_⟩, fun h n => ?_⟩
  · rw [hget, if_pos h, if_pos rfl]
  · rw [hget, if_pos h, if_pos rfl, wrapInt_of_fits _ (by omega) (by omega)]
  · rw [hget, if_pos h, if_neg hn]
  · rw [hget, if_neg (by omega), if_pos h, if_pos rfl]
  · rw [hget, if_neg (by omega), if_pos h, if_pos rfl, wrapInt_of_fits _ (by omega) (by omega)]
  · rw [hget, if_neg (by omega), if_pos h, if_neg hn]
  · rw [hget, if_neg (by omega), if_neg (by omega)]

/-- The amended C5 at the roster `[A, B]`: the map of `NewLeague` is not nil, the call
`MatchResult(A, 5, B, 5)` returns and leaves both counts at 0, and the call
`MatchResult(A, 3, B, 1)` takes `A` from 0 to 1 and leaves `B` at 0. -/
theorem MatchResult_counts_change_witness :
    (NewLeague rosterAB).Wins.isSome = true ∧
    (∃ l', (NewLeague rosterAB).MatchResult "A" 5 "B" 5 = some l' ∧
      mapGet l'.Wins "A" = mapGet (NewLeague rosterAB).Wins "A" ∧
      mapGet l'.Wins "B" = mapGet (NewLeague rosterAB).Wins "B") ∧
    ((NewLeague rosterAB).MatchResult "A" 5 "B" 5).map
      (fun l' => (mapGet l'.Wins "A", mapGet l'.Wins "B")) = some (0, 0) ∧
    ((NewLeague rosterAB).MatchResult "A" 3 "B" 1).map
      (fun l' => (mapGet l'.Wins "A", mapGet l'.Wins "B")) = some (1, 0) :=
  ⟨rfl,
   let ⟨l', e, _, _, h⟩ := MatchResult_counts_change (NewLeague rosterAB) "A" "B" 5 5 rfl
   ⟨l', e, h rfl "A", h rfl "B"⟩,
   by decide, by decide⟩

/-- C5 fails at the league `League{Teams: [A, B], Wins: {A: math.MaxInt64, B: 0}}`: the map
is not nil, `A` has `2 ^ 63 - 1` wins, and after `MatchResult("A", 1, "B", 0)` it has
`-2 ^ 63`, which is not one more. It fails also at the league `League{Teams: [A, B]}`, whose
map is nil: there the call `MatchResult("A", 1, "B", 0)` panics, so no count increases. -/
theorem MatchResult_wraps_at_max :
    (leagueAtMax.Wins.isSome = true ∧
     mapGet leagueAtMax.Wins "A" = 2 ^ 63 - 1 ∧
     (leagueAtMax.MatchResult "A" 1 "B" 0).map (fun l' => mapGet l'.Wins "A")
       = some (-2 ^ 63) ∧
     (-2 ^ 63 : Int) ≠ (2 ^ 63 - 1) + 1) ∧
    (nilLeague.Wins.isSome = false ∧
     (nilLeague.MatchResult "A" 1 "B" 0).isNone = true) :=
  ⟨⟨rfl, by decide, by decide, by decide⟩, rfl, by decide⟩

/-- C6, as the code has it: on a league whose `Wins` map is not nil, a `MatchResult` call
that names `n`, not a key of `l.Wins`, as either team returns, and afterwards `n` is a key
of `l.Wins`: with count 1 if `n` won the match and with count 0 if it did not. -/
theorem MatchResult_registers (l : League) (team1 team2 : String) (score1 score2 : Int)
    (n : String) (hmade : l.Wins.isSome = true) (hn : mapFind l.Wins n = none)
    (hnamed : n = team1 ∨ n = team2) :
    ∃ l', l.MatchResult team1 score1 team2 score2 = some l' ∧
      mapFind l'.Wins n =
        some (if (score1 > score2 ∧ n = team1) ∨ (score2 > score1 ∧ n = team2) then 1
          else 0) := by
  obtain ⟨l', e, _, _, hget, hsome⟩ := MatchResult_made l team1 team2 score1 score2 hmade
  refine ⟨l', e, ?_⟩
  have hget := hget n
  have h0 : mapGet l.Wins n = 0 := by simp [mapGet, hn]
  have h1' : wrapInt (0 + 1) = 1 := by decide
  have hs : (mapFind l'.Wins n).isSome = true := by
    rw [hsome]
    rcases hnamed with h | h <;> simp [h]
  obtain ⟨v, hv⟩ := Option.isSome_iff_exists.mp hs
  rw [hv]
  simp only [mapGet, hv, Option.getD_some] at hget
  congr 1
  rw [hget]
  by_cases c1 : score1 > score2
  · rw [if_pos c1]
    by_cases e1 : n = team1
    · rw [if_pos e1, if_pos (Or.inl ⟨c1, e1⟩), ← e1]
      show wrapInt (mapGet l.Wins n + 1) = 1
      rw [h0, h1']
    · rw [if_neg e1, if_neg (by
        rintro (⟨_, h⟩ | ⟨h, _⟩)
        · exact e1 h
        · omega)]
      exact h0
  · rw [if_neg c1]
    by_cases c2 : score2 > score1
    · rw [if_pos c2]
      by_cases e2 : n = team2
      · rw [if_pos e2, if_pos (Or.inr ⟨c2, e2⟩), ← e2]
        show wrapInt (mapGet l.Wins n + 1) = 1
        rw [h0, h1']
      · rw [if_neg e2, if_neg (by
          rintro (⟨h, _⟩ | ⟨_, h⟩)
          · exact c1 h
          · exact e2 h)]
        exact h0
    · rw [if_neg c2, if_neg (by
        rintro (⟨h, _⟩ | ⟨h, _⟩)
        · exact c1 h
        · exact c2 h)]
      exact h0

/-- The amended C6 at the roster `[A, B]` and the unknown name `Z`: the map of `NewLeague`
is not nil and `Z` is not a key of it; after `MatchResult(A, 3, Z, 1)` the name `Z` is a
key with count 0, and after `MatchResult(Z, 3, A, 1)` it is a key with count 1. -/
theorem MatchResult_registers_witness :
    ((NewLeague rosterAB).Wins.isSome = true ∧ mapFind (NewLeague rosterAB).Wins "Z" = none) ∧
    (∃ l', (NewLeague rosterAB).MatchResult "A" 3 "Z" 1 = some l' ∧
      mapFind l'.Wins "Z" = some 0) ∧
    (∃ l', (NewLeague rosterAB).MatchResult "Z" 3 "A" 1 = some l' ∧
      mapFind l'.Wins "Z" = some 1) ∧
    ((NewLeague rosterAB).MatchResult "A" 3 "Z" 1).map (fun l' => mapFind l'.Wins "Z")
      = some (some 0) ∧
    ((NewLeague rosterAB).MatchResult "Z" 3 "A" 1).map (fun l' => mapFind l'.Wins "Z")
      = some (some 1) :=
  ⟨⟨rfl, by decide⟩,
   MatchResult_registers (NewLeague rosterAB) "A" "Z" 3 1 "Z" rfl (by decide) (by decide),
   MatchResult_registers (NewLeague rosterAB) "Z" "A" 3 1 "Z" rfl (by decide) (by decide),
   by decide, by decide⟩

/-- C6 fails at the league `League{Teams: [A, B]}`, whose `Wins` map is nil: `Z` is not a
key of it, and the call `MatchResult("A", 3, "Z", 1)`, which names `Z`, does not complete:
the write `l.Wins[teamName] = 0` of the first `ValidateTeam` panics on the nil map. The same
holds for `ValidateTeam("Z")` alone and for the call with `Z` as the first team. -/
theorem MatchResult_panics_on_nil_map :
    nilLeague.Wins.isSome = false ∧
    mapFind nilLeague.Wins "Z" = none ∧
    (nilLeague.MatchResult "A" 3 "Z" 1).isNone = true ∧
    (nilLeague.MatchResult "Z" 3 "A" 1).isNone = true ∧
    (nilLeague.ValidateTeam "Z").isNone = true :=
  ⟨rfl, rfl, by decide, by decide, by decide⟩

/-- C8: win counts never go down. Every sequence of calls `before` on a league built by
`NewLeague` returns a league, and so does every further sequence of calls `after` on that
one; with fewer than `2 ^ 63` calls in all, so that no count leaves the `int` range, the
count of every name `n` (absent read as 0) after the calls is at least its count before
them, and a key of `Wins` stays a key. -/
theorem wins_monotone (roster : List Team) (before after : List Report) (n : String)
    (hcalls : before.length + after.length < 2 ^ 63) :
    ∃ l l', (NewLeague roster).play before = some l ∧ l.play after = some l' ∧
      mapGet l.Wins n ≤ mapGet l'.Wins n ∧
      ((mapFind l.Wins n).isSome → (mapFind l'.Wins n).isSome) := by
  obtain ⟨l, e, _, hm⟩ := play_made (NewLeague roster) before (NewLeague_made roster)
  obtain ⟨l', e', _, _⟩ := play_made l after hm
  have h1 := reached_counts roster before l (by omega) e
  have h2 := play_counts l l' _ h1 after (by
    have : ((before.length + after.length : Nat) : Int) < 2 ^ 63 := by exact_mod_cast hcalls
    push_cast at this
    omega) e'
  exact ⟨l, l', e, e', h2.2.1 n, h2.2.2 n⟩

/-- C8 on the league of `main`: after the first report `Foo` has 1 win, after the two
further reports it has 2, and it is a key throughout. -/
theorem wins_monotone_witness :
    (∃ l l', (NewLeague mainRoster).play (mainReports.take 1) = some l ∧
      l.play (mainReports.drop 1) = some l' ∧
      mapGet l.Wins "Foo" ≤ mapGet l'.Wins "Foo" ∧
      ((mapFind l.Wins "Foo").isSome → (mapFind l'.Wins "Foo").isSome)) ∧
    ((NewLeague mainRoster).play (mainReports.take 1)).map (fun l => mapFind l.Wins "Foo")
      = some (some 1) ∧
    (((NewLeague mainRoster).play (mainReports.take 1)).bind
      (fun l => l.play (mainReports.drop 1))).map (fun l => mapFind l.Wins "Foo")
      = some (some 2) :=
  ⟨wins_monotone mainRoster (mainReports.take 1) (mainReports.drop 1) "Foo" (by decide),
   by decide, by decide⟩

/-- C3: for every roster of teams, so for every roster with pairwise distinct names,
`NewLeague` returns a league in which every roster name is mapped to 0 wins, and `Ranking`
called right afterwards returns the roster's names in their original order. -/
theorem Ranking_after_NewLeague (roster : List Team) :
    ∃ l : League, NewLeague roster = l ∧ (∀ t ∈ roster, mapFind l.Wins t.Name = some 0) ∧
      l.Ranking = some (roster.map Team.Name, l) := by
  refine ⟨NewLeague roster, rfl, fun t ht => ?_, ?_⟩
  · rw [NewLeague_Wins, if_pos (List.mem_map_of_mem _ ht)]
  · unfold League.Ranking
    rw [Slices.SortFunc_id _ (rankCmp_NewLeague roster), teamNames_eq, NewLeague_Teams]
    rfl

/-- C7, as the code has it: a name `Z` outside the roster that a `MatchResult` call names
becomes a key of `Wins`, but `Ranking` lists the roster's names only, so its output does not
contain `Z`. This holds after every call that returns, and on a league whose `Wins` map is
not nil the call does return. -/
theorem Ranking_omits_registered (l : League) (team1 team2 : String) (score1 score2 : Int)
    (Z : String) (hZ : Z ∉ l.Teams.map Team.Name) (hnamed : Z = team1 ∨ Z = team2) :
    (l.Wins.isSome = true → ∃ l', l.MatchResult team1 score1 team2 score2 = some l') ∧
    ∀ l', l.MatchResult team1 score1 team2 score2 = some l' →
      (mapFind l'.Wins Z).isSome = true ∧
      ∃ out, l'.Ranking = some (out, l') ∧ out.Perm (l.Teams.map Team.Name) ∧ Z ∉ out := by
  refine ⟨fun hmade => ?_, fun l' e => ?_⟩
  · obtain ⟨l', e, _⟩ := MatchResult_made l team1 team2 score1 score2 hmade
    exact ⟨l', e⟩
  · obtain ⟨l1, e1, ht, _, _, hk⟩ := MatchResult_made l team1 team2 score1 score2
      (MatchResult_returns l l' team1 team2 score1 score2 e)
    rw [e] at e1
    simp only [Option.some.injEq] at e1
    subst e1
    refine ⟨?_, ?_⟩
    · rw [hk]
      rcases hnamed with h | h <;> simp [h]
    · obtain ⟨out, h, p⟩ := Ranking_perm l'
      rw [ht] at p
      exact ⟨out, h, p, fun hm => hZ (p.mem_iff.mp hm)⟩

/-- C7 fails at the roster `[A, B]`: after `MatchResult("A", 3, "Z", 1)`, which returns,
the ranking is `[A, B]`, without `Z`. -/
theorem Ranking_without_Z :
    "Z" ∉ rosterAB.map Team.Name ∧
    ∃ out, (((NewLeague rosterAB).MatchResult "A" 3 "Z" 1).bind
        (fun l => l.Ranking.map Prod.fst)) = some out ∧
      out = ["A", "B"] ∧ "Z" ∉ out :=
  ⟨by decide, ["A", "B"], by decide, rfl, by decide⟩

/-- The amended C7 at the roster `[A, B]` and the call `MatchResult("A", 3, "Z", 1)`: the
call returns a league in which `Z` is a key, and whose ranking is a permutation of the
roster's names without `Z`. -/
theorem Ranking_omits_registered_witness :
    ∃ l', (NewLeague rosterAB).MatchResult "A" 3 "Z" 1 = some l' ∧
      (mapFind l'.Wins "Z").isSome = true ∧
      ∃ out, l'.Ranking = some (out, l') ∧
        out.Perm ((NewLeague rosterAB).Teams.map Team.Name) ∧ "Z" ∉ out :=
  let h := Ranking_omits_registered (NewLeague rosterAB) "A" "Z" 3 1 "Z" (by decide)
    (by decide)
  let ⟨l', e⟩ := h.1 rfl
  ⟨l', e, h.2 l' e⟩

/-- C9: `Ranking` returns for every league, and the call changes neither the order of
`l.Teams` nor the contents of `l.Wins`; so a second call, with no `MatchResult` in between,
returns the same sequence as the first. -/
theorem Ranking_idempotent (l : League) :
    ∃ out l1, l.Ranking = some (out, l1) ∧ l1.Teams = l.Teams ∧ l1.Wins = l.Wins ∧
      l1.Ranking = some (out, l1) := by
  obtain ⟨out, h, _⟩ := Ranking_perm l
  exact ⟨out, l, h, rfl, rfl, h⟩

/-- C10: for every league, also one whose roster repeats a name, whose `Wins` holds names
outside the roster or whose `Wins` is nil, the output of `Ranking` is a permutation of the
names of `l.Teams`: it has the length of `l.Teams` and holds every name exactly as often as
the roster does. -/
theorem Ranking_permutation (l : League) :
    ∃ out, l.Ranking = some (out, l) ∧ out.Perm (l.Teams.map Team.Name) ∧
      out.length = l.Teams.length ∧ ∀ n, out.count n = (l.Teams.map Team.Name).count n := by
  obtain ⟨out, h, p⟩ := Ranking_perm l
  exact ⟨out, h, p, by simpa using p.length_eq, fun n => p.count_eq n⟩

theorem Ranking_small_keeps_order (l : League) (hnames : (l.Teams.map Team.Name).Nodup)
    (hlen : l.Teams.length ≤ 12) :
    ∃ out, l.Ranking = some (out, l) ∧ l.KeepsRosterOrder out := by
  obtain ⟨out, h, p⟩ := Ranking_perm l
  refine ⟨out, h, ?_⟩
  have hs : Slices.SortFunc l.rankCmp l.teamNames = some out := by
    unfold League.Ranking at h
    cases hs : Slices.SortFunc l.rankCmp l.teamNames with
    | none => simp [hs] at h
    | some o =>
      simp only [hs, Option.map_some', Option.some.injEq, Prod.mk.injEq, and_true] at h
      rw [h]
  rw [← teamNames_eq] at hnames p
  have hJ := Slices.SortFunc_small_justified l.rankCmp l.teamNames out
    (by rw [teamNames_eq]; simpa using hlen) hnames hs
  intro x hx y hy hw hxy
  have hox : x ∈ out := p.mem_iff.mpr hx
  have hoy : y ∈ out := p.mem_iff.mpr hy
  by_contra hlt
  have hne : x ≠ y := by
    rintro rfl
    omega
  have hne' : out.indexOf x ≠ out.indexOf y := fun e => hne ((List.indexOf_inj hox hoy).mp e)
  have hb : Slices.Before out y x :=
    ⟨out.indexOf y, out.indexOf x, by omega, List.getElem?_indexOf hoy,
      List.getElem?_indexOf hox⟩
  have ho : Slices.Before l.teamNames x y :=
    ⟨l.teamNames.indexOf x, l.teamNames.indexOf y, hxy, List.getElem?_indexOf hx,
      List.getElem?_indexOf hy⟩
  have hc := hJ y x hb ho
  unfold League.rankCmp at hc
  rw [hw, sub_self] at hc
  exact absurd hc (by decide)

/-- C2, as the code has it: for every roster with unique team names and at most 12 teams,
every sequence of `MatchResult` calls on the league of `NewLeague` returns a league, and
`Ranking` on it keeps the roster order among teams with equal win counts.
(`slices.SortFunc` sorts up to 12 entries by insertion.) -/
theorem Ranking_stable_up_to_12 (roster : List Team) (reports : List Report)
    (hnames : (roster.map Team.Name).Nodup) (hlen : roster.length ≤ 12) :
    ∃ l, (NewLeague roster).play reports = some l ∧
      ∃ out, l.Ranking = some (out, l) ∧ l.KeepsRosterOrder out := by
  obtain ⟨l, e, ht⟩ := reached roster reports
  exact ⟨l, e, Ranking_small_keeps_order l (by rwa [ht]) (by rwa [ht])⟩

/-- The amended C2 on the spec's tie-break example: the roster `[A, B, C]` with `A` and `C`
brought to 1 win and `B` left at 0 is ranked `[A, C, B]`. -/
theorem Ranking_stable_up_to_12_witness :
    (∃ l, (NewLeague rosterABC).play [⟨"A", 1, "B", 0⟩, ⟨"C", 1, "B", 0⟩] = some l ∧
      ∃ out, l.Ranking = some (out, l) ∧ l.KeepsRosterOrder out) ∧
    (((NewLeague rosterABC).play [⟨"A", 1, "B", 0⟩, ⟨"C", 1, "B", 0⟩]).bind
      (fun l => l.Ranking.map Prod.fst)) = some ["A", "C", "B"] :=
  ⟨Ranking_stable_up_to_12 rosterABC [⟨"A", 1, "B", 0⟩, ⟨"C", 1, "B", 0⟩] (by decide)
    (by decide), by decide⟩

/-- C2 fails at a roster of 13 teams with unique names, `A` to `M`: after the one call
`MatchResult("G", 1, "A", 0)` the ranking is `[G, D, C, A, E, F, B, H, I, J, K, L, M]`,
with `D` ahead of `A` although both have 0 wins and `A` comes first in the roster.
(With 13 entries `pdqsortCmpFunc` does not sort by insertion: the median of the entries 3,
6 and 9 makes `D` the pivot, `partitionCmpFunc` swaps `D` to the front, exchanges `B` and
`G`, and puts the pivot back by swapping it with `G`.) -/
theorem Ranking_unstable_at_13 :
    (roster13.map Team.Name).Nodup ∧
    ∃ l out, (NewLeague roster13).play [⟨"G", 1, "A", 0⟩] = some l ∧
      l.Ranking.map Prod.fst = some out ∧
      out = ["G", "D", "C", "A", "E", "F", "B", "H", "I", "J", "K", "L", "M"] ∧
      ¬ l.KeepsRosterOrder out := by
  obtain ⟨l, e, -⟩ := reached roster13 [⟨"G", 1, "A", 0⟩]
  have h1 : ((NewLeague roster13).play [⟨"G", 1, "A", 0⟩]).bind
      (fun l => l.Ranking.map Prod.fst)
      = some ["G", "D", "C", "A", "E", "F", "B", "H", "I", "J", "K", "L", "M"] := by
    decide!
  have h2 : ((NewLeague roster13).play [⟨"G", 1, "A", 0⟩]).map
      (fun l => (mapGet l.Wins "A", mapGet l.Wins "D", l.teamNames))
      = some (0, 0, ["A", "B", "C", "D", "E", "F", "G", "H", "I", "J", "K", "L", "M"]) := by
    decide
  rw [e] at h1 h2
  simp only [Option.some_bind] at h1
  simp only [Option.map_some', Option.some.injEq, Prod.mk.injEq] at h2
  obtain ⟨hA, hD, hT⟩ := h2
  refine ⟨by decide, l, _, e, h1, rfl, fun h => ?_⟩
  have := h "A" (by rw [hT]; decide) "D" (by rw [hT]; decide) (by rw [hA, hD])
    (by rw [hT]; decide)
  revert this
  decide

theorem rankCmp_of_counts (l : League) (k : Int) (h : l.CountsUpTo k) (hk : k < 2 ^ 63)
    (x y : String) : l.rankCmp x y < 0 ↔ -mapGet l.Wins x < -mapGet l.Wins y := by
  have hx := h x
  have hy := h y
  unfold League.rankCmp
  rw [wrapInt_of_fits _ (by omega) (by omega)]
  omega

/-- C1: every sequence of `MatchResult` calls on a league built by `NewLeague` returns a
league, and (for fewer than `2 ^ 63` calls, so that no count leaves the `int` range)
`Ranking` on it returns a list in descending order of win count: every name has at least as
many wins as every later one, in particular as the next one. -/
theorem Ranking_descending (roster : List Team) (reports : List Report)
    (hcalls : reports.length < 2 ^ 63) :
    ∃ l, (NewLeague roster).play reports = some l ∧
      ∃ out, l.Ranking = some (out, l) ∧
        List.Chain' (fun earlier later => mapGet l.Wins earlier ≥ mapGet l.Wins later) out ∧
        List.Pairwise (fun earlier later => mapGet l.Wins earlier ≥ mapGet l.Wins later)
          out := by
  obtain ⟨l, e, _⟩ := reached roster reports
  obtain ⟨out, h, _⟩ := Ranking_perm l
  have hs : Slices.SortFunc l.rankCmp l.teamNames = some out := by
    unfold League.Ranking at h
    cases hs : Slices.SortFunc l.rankCmp l.teamNames with
    | none => simp [hs] at h
    | some o =>
      simp only [hs, Option.map_some', Option.some.injEq, Prod.mk.injEq, and_true] at h
      rw [h]
  have hk : ((reports.length : Nat) : Int) < 2 ^ 63 := by exact_mod_cast hcalls
  have hp := Slices.SortFunc_sorted _ (fun t => -mapGet l.Wins t)
    (rankCmp_of_counts _ _ (reached_counts roster reports l hcalls e) hk) hs
  have hp' : List.Pairwise (fun earlier later => mapGet l.Wins earlier ≥ mapGet l.Wins later)
      out :=
    hp.imp fun hab => by
      simp only at hab
      omega
  exact ⟨l, e, out, h, hp'.chain', hp'⟩

/-- C1 on the league of `main`: the roster `[Markham, Sauga, Foo]` with its three reports is
ranked `[Foo, Markham, Sauga]`. -/
theorem Ranking_descending_witness :
    (∃ l, (NewLeague mainRoster).play mainReports = some l ∧
      ∃ out, l.Ranking = some (out, l) ∧
        List.Chain' (fun earlier later => mapGet l.Wins earlier ≥ mapGet l.Wins later) out ∧
        List.Pairwise (fun earlier later => mapGet l.Wins earlier ≥ mapGet l.Wins later)
          out) ∧
    (((NewLeague mainRoster).play mainReports).bind (fun l => l.Ranking.map Prod.fst))
      = some ["Foo", "Markham", "Sauga"] :=
  ⟨Ranking_descending mainRoster mainReports (by decide), by decide⟩
